import Mathlib

/-!
Verification of the HogueResMaster content pipeline (HogueResMaster_v11.py,
HogueResMaster_v11_final_fat.py, HogueResMaster_v9_2_2.py) against its
natural-language specification.

The Python sources are embedded shallowly:
* strings are Lean `String`s processed as `List Char`; only ASCII-relevant
  behaviour of Python's `str.lower` / character classes is exercised by the
  programs, and the embedding models exactly that;
* Python `int(round(x))` on the nonnegative values arising here is
  round-half-even; where the Python source computes with IEEE binary64
  floating point in a way that can differ from exact rational rounding
  (`ats_score`), the binary64 arithmetic itself is modelled (`fl53`);
* Python dicts whose iteration order matters are modelled as association
  lists, and behaviour that does not depend on the (unspecified) iteration
  order is proved for every order.
-/

/-- Round-half-even (Python `round`, banker's rounding) of the fraction
`n / d` for natural `n` and positive `d`.  Python `int(round(a/b))` on the
nonnegative quotients appearing in the sources agrees with this function:
the float quotient is correctly rounded and the spacing of the rationals
involved keeps it on the same side of every half-integer. -/
def pyRoundDiv (n d : ℕ) : ℕ :=
  if 2 * (n % d) < d then n / d
  else if d < 2 * (n % d) then n / d + 1
  else if (n / d) % 2 = 0 then n / d else n / d + 1

/-- ASCII letter, the character class `[A-Za-z]` (codepoints 65–90 and
97–122) used by the tokenizers. -/
def isAsciiLetter (c : Char) : Bool :=
  (65 ≤ c.toNat && c.toNat ≤ 90) || (97 ≤ c.toNat && c.toNat ≤ 122)

/-- ASCII lowercase letter `[a-z]` (codepoints 97–122). -/
def isLowerAZ (c : Char) : Bool :=
  97 ≤ c.toNat && c.toNat ≤ 122

/-- ASCII digit `[0-9]`, Python's `\d` on the ASCII inputs handled here. -/
def isAsciiDigit (c : Char) : Bool :=
  48 ≤ c.toNat && c.toNat ≤ 57

/-- Python regex word character `\w` restricted to ASCII: `[A-Za-z0-9_]`. -/
def isWordChar (c : Char) : Bool :=
  isAsciiLetter c || isAsciiDigit c || c = '_'

/-- The exact character set for which Python's `str.isspace`, `str.strip()`
and the regex class `\s` hold (verified to coincide in CPython). -/
def isPySpace (c : Char) : Bool :=
  c ∈ ['\x09', '\x0a', '\x0b', '\x0c', '\x0d', '\x1c', '\x1d', '\x1e', '\x1f',
       '\x20', '\x85', '\xa0', '\u1680', '\u2000', '\u2001', '\u2002', '\u2003',
       '\u2004', '\u2005', '\u2006', '\u2007', '\u2008', '\u2009', '\u200a',
       '\u2028', '\u2029', '\u202f', '\u205f', '\u3000']

/-- Python `str.lower` restricted to ASCII (all lowering done by the
pipeline happens before ASCII-only regex matching). -/
def pyLower (s : String) : String :=
  String.mk (s.toList.map Char.toLower)

/-- Python `str.strip()` on the underlying character list: drop leading and
trailing whitespace. -/
def stripList (l : List Char) : List Char :=
  ((l.dropWhile isPySpace).reverse.dropWhile isPySpace).reverse

/-- Python `str.strip()`: drop leading and trailing whitespace. -/
def pyStrip (s : String) : String :=
  String.mk (stripList s.toList)

/-- Helper for `alphaRuns`: accumulates the current (reversed) letter run. -/
def alphaRunsAux : List Char → List Char → List (List Char)
  | [], acc => if acc.isEmpty then [] else [acc.reverse]
  | c :: cs, acc =>
    if isAsciiLetter c then alphaRunsAux cs (c :: acc)
    else if acc.isEmpty then alphaRunsAux cs []
    else acc.reverse :: alphaRunsAux cs []

/-- Maximal runs of ASCII letters in a character list; `re.findall` with the
greedy pattern `[A-Za-z]{2,}` returns exactly the runs of length ≥ 2. -/
def alphaRuns (l : List Char) : List (List Char) :=
  alphaRunsAux l []

/-- Keep the first occurrence of each element, in order (the `seen`-set
loop shared by every `kw_set` in the sources). -/
def dedupFirstAux : List String → List String → List String
  | [], _ => []
  | t :: ts, seen =>
    if t ∈ seen then dedupFirstAux ts seen
    else t :: dedupFirstAux ts (t :: seen)

namespace V11

/-- Source `HogueResMaster_v11.py` line 202: `clean_tokens` — maximal alphabetic
runs of length ≥ 2 of the lowercased text.  (This version applies NO
stopword filter.) -/
def clean_tokens (text : String) : List String :=
  ((alphaRuns (pyLower text).toList).filter (fun r => 2 ≤ r.length)).map
    (fun r => String.mk r)

/-- Source `HogueResMaster_v11.py` line 205: `kw_set` — first-seen deduplication,
capped at `topn`.  The Python function returns `set(out[:topn])`; since
`out[:topn]` is duplicate-free we keep the list itself (its order matters
only for the capping) and use duplicate-free-list operations for the set
cardinality and intersection downstream. -/
def kw_set (text : String) (topn : ℕ := 400) : List String :=
  (dedupFirstAux (clean_tokens text) []).take topn

/-- Source `HogueResMaster_v11.py` lines 199-200: `ACTION_VERBS` (17 verbs). -/
def ACTION_VERBS : List String :=
  ["led", "owned", "built", "delivered", "implemented", "spearheaded",
   "optimized", "designed", "launched", "scaled", "improved", "reduced",
   "increased", "managed", "developed", "drove", "partnered"]

end V11

/-- The stopword set shared by `HogueResMaster_v11_final_fat.py` (line 72)
and `HogueResMaster_v9_2_2.py` (line 201). -/
def STOPWORDS : List String :=
  ["a", "an", "and", "or", "the", "but", "with", "for", "to", "from", "on",
   "in", "at", "as", "by", "of", "be", "is", "are", "was", "were", "will",
   "would", "shall", "should", "can", "could", "into", "within", "without",
   "among", "across", "per", "plus", "via", "than", "then", "that", "this",
   "those", "it", "its", "your", "you", "we", "our", "they", "them", "their",
   "he", "she", "his", "her", "who", "whom", "which", "what", "when",
   "where", "why", "how"]

namespace Fat

/-- Source `HogueResMaster_v11_final_fat.py` line 112: `clean_tokens` — as in v11
but with the stopword filter applied. -/
def clean_tokens (text : String) : List String :=
  (((alphaRuns (pyLower text).toList).filter (fun r => 2 ≤ r.length)).map
    (fun r => String.mk r)).filter (fun t => t ∉ STOPWORDS)

/-- Source `HogueResMaster_v11_final_fat.py` line 115: `kw_set` (see the remark on
`V11.kw_set` about returning the duplicate-free list). -/
def kw_set (text : String) (topn : ℕ := 400) : List String :=
  (dedupFirstAux (clean_tokens text) []).take topn

end Fat

/-- The test `litMatchBoundary needle hay` holds when `hay` starts with `needle` and
the character right after it (if any) is not a word character — the suffix
part of matching `\bneedle\b`. -/
def litMatchBoundary : List Char → List Char → Bool
  | [], [] => true
  | [], c :: _ => !isWordChar c
  | _ :: _, [] => false
  | n :: ns, c :: cs => c = n && litMatchBoundary ns cs

/-- Whether the previous character (none at the start of the text) allows a
`\b` boundary before a word character. -/
def prevOk : Option Char → Bool
  | none => true
  | some p => !isWordChar p

/-- Occurrence search for `re.search(r"\bv\b", hay)` with an alphabetic
needle `v`: some position has a non-word (or absent) character before it
and matches `needle` followed by a non-word (or absent) character. -/
def hasWordOccAux (needle : List Char) : Option Char → List Char → Bool
  | prev, [] => prevOk prev && litMatchBoundary needle []
  | prev, c :: cs =>
    (prevOk prev && litMatchBoundary needle (c :: cs)) ||
      hasWordOccAux needle (some c) cs

/-- Python `re.search(rf"\b{v}\b", hay) is not None` for an alphabetic `v`. -/
def hasWordOcc (hay needle : String) : Bool :=
  hasWordOccAux needle.toList none hay.toList

/-- Drop an exact literal from the front of a character list. -/
def dropLit : List Char → List Char → Option (List Char)
  | [], l => some l
  | _ :: _, [] => none
  | p :: ps, c :: cs => if c = p then dropLit ps cs else none

/-- One attempted match of the first alternative `[%$€£]\s?\d` of the
numeric-evidence pattern, returning the rest of the input on success.
The optional `\s` is greedy, with the regex backtracking modelled exactly:
a space is consumed only when a digit follows it. -/
def numAlt1 : List Char → Option (List Char)
  | [] => none
  | c :: cs =>
    if c = '%' || c = '$' || c = '€' || c = '£' then
      match cs with
      | [] => none
      | d :: ds =>
        if isAsciiDigit d then some ds
        else if isPySpace d then
          match ds with
          | [] => none
          | e :: es => if isAsciiDigit e then some es else none
        else none
    else none

/-- Consume `(?:,\d{3})*` greedily (each iteration demands a comma followed
by exactly three digits; no later part of the pattern can force
backtracking, so maximal munch is exact). -/
def chewGroupsAux : ℕ → List Char → List Char
  | 0, l => l
  | fuel + 1, l =>
    match l with
    | ',' :: d1 :: d2 :: d3 :: r =>
      if isAsciiDigit d1 && isAsciiDigit d2 && isAsciiDigit d3 then
        chewGroupsAux fuel r
      else l
    | _ => l

/-- One attempted match of the second alternative
`\d{1,3}(?:,\d{3})*(?:\.\d+)?%?`: greedy 1–3 leading digits, thousands
groups, optional fraction, optional percent sign.  Every optional tail can
match the empty string, so the greedy choices never backtrack. -/
def numAlt2 (l : List Char) : Option (List Char) :=
  let ds := l.takeWhile isAsciiDigit
  if ds.isEmpty then none
  else
    let k := min ds.length 3
    let rest0 := l.drop k
    let rest1 := chewGroupsAux rest0.length rest0
    let rest2 :=
      match rest1 with
      | '.' :: r =>
        let fs := r.takeWhile isAsciiDigit
        if fs.isEmpty then rest1 else r.drop fs.length
      | _ => rest1
    match rest2 with
    | '%' :: r => some r
    | _ => some rest2

/-- One step of `re.findall` for the numeric-evidence pattern
`[%$€£]\s?\d|\d{1,3}(?:,\d{3})*(?:\.\d+)?%?`: the first alternative is
preferred, as in Python. -/
def numStep (l : List Char) : Option (List Char) :=
  match numAlt1 l with
  | some r => some r
  | none => numAlt2 l

/-- One attempted match of `https?://\S+` (greedy `s?` and `\S+`, with the
single backtracking case — `https` not followed by `://` — modelled). -/
def urlStep (l : List Char) : Option (List Char) :=
  let attempt : List Char → Option (List Char) := fun rest =>
    match dropLit "://".toList rest with
    | none => none
    | some r =>
      let body := r.takeWhile (fun c => !isPySpace c)
      if body.isEmpty then none else some (r.drop body.length)
  match dropLit "http".toList l with
  | none => none
  | some r1 =>
    match r1 with
    | 's' :: rest =>
      (match attempt rest with
       | some x => some x
       | none => attempt r1)
    | _ => attempt r1

/-- Count the non-overlapping matches `re.findall` finds, scanning left to
right: on a match continue after it, otherwise advance one character.
Every `step` used here consumes at least one character, so `fuel :=
length` makes the scan total and exact. -/
def scanCount (step : List Char → Option (List Char)) : ℕ → List Char → ℕ
  | 0, _ => 0
  | _ + 1, [] => 0
  | fuel + 1, c :: cs =>
    match step (c :: cs) with
    | some rest => 1 + scanCount step fuel rest
    | none => scanCount step fuel cs

/-- Python `len(re.findall(r"[%$€£]\s?\d|\d{1,3}(?:,\d{3})*(?:\.\d+)?%?", tx))`. -/
def countNums (tx : String) : ℕ :=
  scanCount numStep tx.toList.length tx.toList

/-- Python `len(re.findall(r"https?://\S+", tx))`. -/
def countUrls (tx : String) : ℕ :=
  scanCount urlStep tx.toList.length tx.toList

/-- The power `2 ^ e` as a rational, for integer `e`. -/
def pow2 (e : ℤ) : ℚ :=
  if 0 ≤ e then ((2 : ℚ) ^ e.toNat) else (1 / (2 : ℚ) ^ (-e).toNat)

/-- Largest `e ∈ [-64, 64]` with `2 ^ e ≤ q` — the binary exponent of `q`
for the magnitudes arising in `ats_score` (all lie well inside this
range). -/
def floorLog2 (q : ℚ) : ℤ :=
  (List.range 129).foldl
    (fun acc i => let e : ℤ := (i : ℤ) - 64; if pow2 e ≤ q then e else acc)
    (-64)

/-- Round-half-even of a nonnegative rational to a natural number
(Python `int(round(x))` for the nonnegative floats arising here). -/
def rheQ (q : ℚ) : ℕ :=
  pyRoundDiv q.num.toNat q.den

/-- Round a nonnegative rational to the nearest IEEE binary64 value
(53-bit significand, round-half-even; exponent range irrelevant for the
magnitudes arising here).  This models Python float arithmetic exactly:
each arithmetic operation below rounds its exact rational result through
`fl53`. -/
def fl53 (q : ℚ) : ℚ :=
  if q ≤ 0 then 0
  else
    let e := floorLog2 q
    let m := rheQ (q * pow2 (52 - e))
    (m : ℚ) * pow2 (e - 52)

/-- IEEE binary64 addition of exactly-represented operands. -/
def flAdd (a b : ℚ) : ℚ := fl53 (a + b)

/-- IEEE binary64 multiplication of exactly-represented operands. -/
def flMul (a b : ℚ) : ℚ := fl53 (a * b)

/-- IEEE binary64 quotient of two naturals (Python `a / b`). -/
def flDivN (a b : ℕ) : ℚ := fl53 ((a : ℚ) / (b : ℚ))

/-- Python `min` on two floats: the first argument when they are equal. -/
def flMin (a b : ℚ) : ℚ := if a ≤ b then a else b

/-- The binary64 value of the literal `0.3`. -/
def FLOAT03 : ℚ := fl53 (3 / 10)

/-- The binary64 value of the literal `0.2`. -/
def FLOAT02 : ℚ := fl53 (1 / 5)

namespace V11

/-- Source `HogueResMaster_v11.py` line 211: `ats_score`.  The float expression
`0.5*min(1.0, vcount/18) + 0.3*min(1.0, nums/12) + 0.2*min(1.0, urls/3)`
is evaluated in the modelled binary64 arithmetic (left-associated sums, as
in Python); `0.5`, `1.0` and `100` are exact binary64 values. -/
def ats_score (tx : String) : ℕ :=
  let lower := pyLower tx
  let vcount := (ACTION_VERBS.filter (fun v => hasWordOcc lower v)).length
  let nums := countNums tx
  let urls := countUrls tx
  let raw := flAdd (flAdd (flMul (1 / 2) (flMin 1 (flDivN vcount 18)))
                          (flMul FLOAT03 (flMin 1 (flDivN nums 12))))
                   (flMul FLOAT02 (flMin 1 (flDivN urls 3)))
  rheQ (flMul raw 100)

/-- The score dictionary `{"match": …, "scan": …, "hire": …, "grade": …}`
returned by `composite_scores`. -/
structure ScoreSet where
  matchScore : ℕ
  scan : ℕ
  hire : ℕ
  grade : String
  deriving DecidableEq, Repr

/-- Cardinality of the set intersection `len(jks & tks)` computed on the
duplicate-free keyword lists. -/
def interCard (a b : List String) : ℕ :=
  (a.filter (fun t => t ∈ b)).length

/-- Source `HogueResMaster_v11.py` line 218: `composite_scores`.
`cov = int(round(100 * len(jks & tks) / max(1, len(jks))))` and
`hire = int(round(0.5*cov + 0.5*ats))` are exactly round-half-even of the
corresponding fractions (the float quotients involved are correctly
rounded and never cross a half-integer), and the grade is the inline
conditional chain of line 223. -/
def composite_scores (jd txt : String) : ScoreSet :=
  let jks := kw_set jd
  let tks := kw_set txt
  let cov := pyRoundDiv (100 * interCard jks tks) (max 1 jks.length)
  let ats := ats_score txt
  let hire := pyRoundDiv (cov + ats) 2
  let grade :=
    if 97 ≤ hire then "A+" else if 93 ≤ hire then "A"
    else if 90 ≤ hire then "A-" else if 87 ≤ hire then "B+"
    else if 83 ≤ hire then "B" else if 80 ≤ hire then "B-"
    else if 77 ≤ hire then "C+" else if 73 ≤ hire then "C"
    else if 70 ≤ hire then "C-" else if 60 ≤ hire then "D" else "F"
  { matchScore := cov, scan := ats, hire := hire, grade := grade }

end V11

namespace Fat

/-- Source `HogueResMaster_v11_final_fat.py` line 130: `letter_grade`. -/
def letter_grade (x : ℕ) : String :=
  if 97 ≤ x then "A+" else if 93 ≤ x then "A"
  else if 90 ≤ x then "A-" else if 87 ≤ x then "B+"
  else if 83 ≤ x then "B" else if 80 ≤ x then "B-"
  else if 77 ≤ x then "C+" else if 73 ≤ x then "C"
  else if 70 ≤ x then "C-" else if 60 ≤ x then "D" else "F"

end Fat

/-- Modelled from the spec: the grade table of §4.2 / claim C1, written as
the step function with inclusive lower bounds 97→A+, 93→A, 90→A-, 87→B+,
83→B, 80→B-, 77→C+, 73→C, 70→C-, 60→D, else F — for comparison with the
implementation's grading chain. -/
def specGrade (h : ℕ) : String :=
  if 97 ≤ h then "A+" else if 93 ≤ h then "A"
  else if 90 ≤ h then "A-" else if 87 ≤ h then "B+"
  else if 83 ≤ h then "B" else if 80 ≤ h then "B-"
  else if 77 ≤ h then "C+" else if 73 ≤ h then "C"
  else if 70 ≤ h then "C-" else if 60 ≤ h then "D" else "F"

/-! ### Feature flags (v11 defaults, `HogueResMaster_v11.py` lines 86-98) -/

/-- Flag `V11["dedup_tighten"]` — default `True`. -/
def V11_dedup_tighten : Bool := true

/-- Flag `V11["evidence_only"]` — default `True`. -/
def V11_evidence_only : Bool := true

/-- Flag `V11["idempotent_runs"]` — default `True`. -/
def V11_idempotent_runs : Bool := true

/-- Flag `V11["ab_bullet_variant"]` — default `True`. -/
def V11_ab_bullet_variant : Bool := true

/-- Flag `V11["federal_gate"]` — default `True`. -/
def V11_federal_gate : Bool := true

/-- Flag `V11["style_memory"]` — default `True`. -/
def V11_style_memory : Bool := true

/-- Flag `V11["demo_mode"]` — default `False`. -/
def V11_demo_mode : Bool := false

/-- Flag `V11["zip_layout_mobile"]` — default `True`. -/
def V11_zip_layout_mobile : Bool := true

/-! ### `tighten_bullets` (`HogueResMaster_v11.py` lines 395-406) -/

/-- Python string slicing `s[:n]` over code points. -/
def pyTake (s : String) (n : ℕ) : String :=
  String.mk (s.toList.take n)

/-- Python `re.sub(r"\s+", " ", ·)`: replace every maximal whitespace run by one
space; the flag records whether the scan is inside a run. -/
def squishAux : List Char → Bool → List Char
  | [], _ => []
  | c :: cs, true =>
    if isPySpace c then squishAux cs true else c :: squishAux cs false
  | c :: cs, false =>
    if isPySpace c then ' ' :: squishAux cs true else c :: squishAux cs false

/-- Python `re.sub(r"\s+", " ", b.strip())` — the per-bullet normalization of
`tighten_bullets`. -/
def normalizeWs (b : String) : String :=
  String.mk (squishAux (pyStrip b).toList false)

/-- The `for b in bullets` loop of `tighten_bullets`: `seen` is the set of
lowercased keys, `cnt` the number of entries kept so far; the kept entry
is the normalized line truncated to 180 characters, and the loop `break`s
once the kept count reaches `max_per_role` (checked after appending). -/
def tightenGo (maxPer : ℕ) : List String → List String → ℕ → List String
  | [], _, _ => []
  | b :: bs, seen, cnt =>
    let t := normalizeWs b
    if t = "" then tightenGo maxPer bs seen cnt
    else if pyLower t ∈ seen then tightenGo maxPer bs seen cnt
    else if maxPer ≤ cnt + 1 then [pyTake t 180]
    else pyTake t 180 :: tightenGo maxPer bs (pyLower t :: seen) (cnt + 1)

/-- Source `HogueResMaster_v11.py` line 395: `tighten_bullets` (the
`dedup_tighten` flag is `True` by default, and `bullets or []` is the
identity on lists). -/
def tighten_bullets (bullets : List String) (max_per_role : ℕ := 6) :
    List String :=
  if V11_dedup_tighten then tightenGo max_per_role bullets [] 0 else bullets

/-! ### Idempotence of the whitespace normalization in `tighten_bullets` -/

/-- The first character, if any, is not whitespace. -/
def headNoWs (l : List Char) : Prop :=
  ∀ c, l.head? = some c → isPySpace c = false

/-- The last character, if any, is not whitespace. -/
def lastNoWs (l : List Char) : Prop :=
  ∀ c, l.getLast? = some c → isPySpace c = false

/-- Every whitespace character is a plain space. -/
def allSpGood (l : List Char) : Prop :=
  ∀ c ∈ l, isPySpace c = true → c = ' '

/-- No two adjacent whitespace characters. -/
def noTwoWs (l : List Char) : Prop :=
  List.Chain' (fun a b => ¬(isPySpace a = true ∧ isPySpace b = true)) l

/-- A 181-character bullet ending in "a" (normalization leaves it intact;
truncation to 180 characters then cuts the distinguishing letter). -/
def longBulletA : String := String.mk (List.replicate 180 'x' ++ ['a'])

/-- A 181-character bullet ending in "b". -/
def longBulletB : String := String.mk (List.replicate 180 'x' ++ ['b'])

/-- The common 180-character truncation of the two long bullets. -/
def longBulletX : String := String.mk (List.replicate 180 'x')

/-! ### Style-signal detection (`HogueResMaster_v11.py` lines 238-246) and
the federal closing-time helper (lines 339-341) -/

/-- The test `startsWithL needle hay`: `hay` begins with `needle`. -/
def startsWithL : List Char → List Char → Bool
  | [], _ => true
  | _ :: _, [] => false
  | p :: ps, c :: cs => c = p && startsWithL ps cs

/-- Occurrence search for Python's substring test `needle in hay`. -/
def hasSubL (needle : List Char) : List Char → Bool
  | [] => startsWithL needle []
  | c :: cs => startsWithL needle (c :: cs) || hasSubL needle cs

/-- Python `needle in hay` on strings. -/
def containsSub (hay needle : String) : Bool :=
  hasSubL needle.toList hay.toList

/-- One attempted match of `\b\d{1,3}%\b` at the current position: the
preceding character (if any) must be a non-word character, the digit run
here must have length 1–3 and be followed by `%`, and — because `%` is
itself a non-word character — the trailing `\b` demands a word character
right after the `%`. -/
def pctStepOk (prev : Option Char) (l : List Char) : Option (List Char) :=
  if prevOk prev then
    let ds := l.takeWhile isAsciiDigit
    if 1 ≤ ds.length ∧ ds.length ≤ 3 then
      match l.drop ds.length with
      | '%' :: rest =>
        match rest with
        | c :: _ => if isWordChar c then some rest else none
        | [] => none
      | _ => none
    else none
  else none

/-- Fuel-driven scan counting non-overlapping `\b\d{1,3}%\b` matches
(`re.findall`); every match consumes at least two characters, so
`fuel := length` is exact. -/
def countPctAux : ℕ → Option Char → List Char → ℕ
  | 0, _, _ => 0
  | _ + 1, _, [] => 0
  | fuel + 1, prev, c :: cs =>
    match pctStepOk prev (c :: cs) with
    | some rest => 1 + countPctAux fuel (some '%') rest
    | none => countPctAux fuel (some c) cs

/-- Python `len(re.findall(r"\b\d{1,3}%\b", t))`. -/
def countPctTokens (l : List Char) : ℕ :=
  countPctAux l.length none l

/-- Source `HogueResMaster_v11.py` line 238: `detect_signals`.  The Python
function accumulates a `set`; we return the list of signals added, in the
textual order of the `if` statements — only membership is used
downstream. -/
def detect_signals (resume_txt jd_txt : String) : List String :=
  let t := pyLower (resume_txt ++ " " ++ jd_txt)
  (if ["usajobs", " gs-", "specialized experience"].any
      (fun k => containsSub t k) then ["federal"] else []) ++
  (if ["rn", "emt", "hipaa", "epic", "cerner", "clinic", "ehr", "emr"].any
      (fun k => containsSub t k) then ["healthcare"] else []) ++
  (if ["curriculum vitae", "publication", "postdoc", "grant"].any
      (fun k => containsSub t k) then ["academic"] else []) ++
  (if ["vp ", "vice president", "director ", "p&l", "profit and loss",
       "org of", "grew ", "growth "].any
      (fun k => containsSub t k) then ["executive"] else []) ++
  (if ["python", "sql", "aws", "git", "ci/cd", "docker", "kubernetes",
       "microservice"].any
      (fun k => containsSub t k) then ["technical"] else []) ++
  (if 3 ≤ countPctTokens t.toList then ["metric_heavy"] else [])

/-- Skip one leading dot, if present (the deterministic equivalent of the
greedy optional `\.?` when the next mandatory literal is not a dot). -/
def skipDot : List Char → List Char
  | '.' :: r => r
  | r => r

/-- Match `11:\s*59\s*p\.?m\.?\s*eastern` at the current position.  All
`\s*` are greedy against following non-space literals, so maximal munch is
exact. -/
def closingAt (l : List Char) : Bool :=
  match dropLit "11:".toList l with
  | none => false
  | some r1 =>
    match dropLit "59".toList (r1.dropWhile isPySpace) with
    | none => false
    | some r2 =>
      match r2.dropWhile isPySpace with
      | 'p' :: r3 =>
        match skipDot r3 with
        | 'm' :: r5 =>
          startsWithL "eastern".toList ((skipDot r5).dropWhile isPySpace)
        | _ => false
      | _ => false

/-- Python `re.search` of the closing-time pattern: a match at some position. -/
def searchClosing : List Char → Bool
  | [] => closingAt []
  | c :: cs => closingAt (c :: cs) || searchClosing cs

/-- Source `HogueResMaster_v11.py` line 339: `detect_closing_et`. -/
def detect_closing_et (jd_text : String) : String :=
  if searchClosing (pyLower jd_text).toList
  then "Submit by 11:59 p.m. Eastern Time on the closing date."
  else ""

/-- The §8 scenario job text. -/
def scenarioJob : String :=
  "Responsibilities: lead adoption programs, own renewal targets, report on revenue growth, 40 hours/week, closes 11:59 p.m. Eastern"

/-- The §8 scenario candidate text. -/
def scenarioResume : String :=
  "Led adoption +14%. Built playbook; reduced churn 10%."

/-! ### Content payload and enrichment
(`HogueResMaster_v11_final_fat.py` lines 199-283; `inject_keywords` and the
metric shell are line-for-line identical in `HogueResMaster_v9_2_2.py`
lines 308-337) -/

/-- One entry of `payload["experience"]`. -/
structure Role where
  company : String
  title : String
  dates : String
  bullets : List String
  deriving DecidableEq, Repr

/-- The content payload dictionary built by `build_payload`: name, summary,
core skills, experience roles and an education line. -/
structure Payload where
  name : String
  summary : String
  core_items : List String
  experience : List Role
  education : String
  deriving DecidableEq, Repr

namespace Fat

/-- Source `HogueResMaster_v11_final_fat.py` line 213: `payload_to_text` (the
education line is emitted only when the field is truthy, i.e. non-empty). -/
def payload_to_text (p : Payload) : String :=
  String.intercalate "\n"
    ([p.summary, "Core: " ++ String.intercalate ", " p.core_items] ++
     (p.experience.flatMap (fun j =>
       (j.title ++ " @ " ++ j.company ++ " — " ++ j.dates) ::
         j.bullets.map (fun b => "• " ++ b))) ++
     (if p.education ≠ "" then ["Education: " ++ p.education] else []))

end Fat

/-- Python `str.title()` restricted to ASCII letters: a letter is
uppercased when the previous character is not a cased letter, lowercased
otherwise. -/
def pyTitleAux : List Char → Bool → List Char
  | [], _ => []
  | c :: cs, prevCased =>
    if isAsciiLetter c then
      (if prevCased then c.toLower else c.toUpper) :: pyTitleAux cs true
    else c :: pyTitleAux cs false

/-- Python `str.title()`. -/
def pyTitle (s : String) : String :=
  String.mk (pyTitleAux s.toList false)

/-- The `noise` set filtered out of missing keywords by `inject_keywords`. -/
def noiseWords : List String :=
  ["and", "with", "from", "will", "work", "role", "team", "customer",
   "customers", "clients", "provide", "years", "experience",
   "requirements", "must", "have"]

/-- The fixed sentence skeleton prepended to the most recent role's
bullets by `inject_keywords`. -/
def advancedSentence (ks : List String) : String :=
  "Advanced " ++ String.intercalate ", " ks ++
    " initiatives aligned to role requirements."

namespace Fat

/-- The summary step of `inject_keywords` (line 261-263): append a
"Focus: …" clause naming the first `sumCap` missing keywords, strip the
result, and drop the consumed keywords. -/
def injSummaryStep (sumCap : ℕ) (m : List String) (p : Payload) :
    Payload × List String :=
  if sumCap ≠ 0 ∧ ¬m.isEmpty then
    ({ p with summary := pyStrip (p.summary ++
        (if p.summary ≠ "" then " " else "") ++ "Focus: " ++
        String.intercalate ", " (m.take sumCap) ++ ".") }, m.drop sumCap)
  else (p, m)

/-- The core-skills step of `inject_keywords` (lines 264-269): append the
title-cased form of up to `coreCap` missing keywords, skipping any already
present, and drop the consumed keywords. -/
def injCoreStep (coreCap : ℕ) (m : List String) (p : Payload) :
    Payload × List String :=
  if coreCap ≠ 0 ∧ ¬m.isEmpty then
    ({ p with core_items :=
        ((m.take coreCap).foldl
          (fun core t =>
            if pyTitle t ∈ core then core else core ++ [pyTitle t])
          p.core_items) }, m.drop coreCap)
  else (p, m)

/-- The bullet step of `inject_keywords` (lines 270-274): prepend one
synthesized sentence naming up to `bulletCap` missing keywords to the most
recent role's bullets (a no-op when the experience list is empty). -/
def injBulletStep (bulletCap : ℕ) (m : List String) (p : Payload) :
    Payload :=
  if bulletCap ≠ 0 ∧ ¬m.isEmpty then
    match p.experience with
    | [] => p
    | j :: js =>
      { p with experience :=
          { j with bullets :=
              advancedSentence (m.take bulletCap) :: j.bullets } :: js }
  else p

/-- The body of `inject_keywords` after the `missing` list has been
computed (`HogueResMaster_v11_final_fat.py` lines 254-275).  Python
enumerates `missing = list(kw_set(jd) - kw_set(text))` in an unspecified
set order; taking the enumeration as an explicit argument lets the cap
properties be proved for every order.  The three mutation steps are the
named functions above, applied in program order. -/
def inject_keywords_core (missing0 : List String) (p : Payload)
    (caps : ℕ × ℕ × ℕ) : Payload :=
  let missing1 := (missing0.filter (fun m => m ∉ noiseWords)).take 6
  if missing1.isEmpty then p
  else
    let r1 := injSummaryStep caps.1 missing1 p
    let r2 := injCoreStep caps.2.1 r1.2 r1.1
    injBulletStep caps.2.2 r2.2 r2.1

/-- The canonical enumeration (first-seen keyword order) of
`kw_set(jd_text) - kw_set(payload_to_text(payload))`. -/
def kwDiffCanon (jd ptext : String) : List String :=
  (Fat.kw_set jd).filter (fun t => t ∉ Fat.kw_set ptext)

/-- Source `HogueResMaster_v11_final_fat.py` line 254: `inject_keywords` with the
set difference enumerated in the canonical order. -/
def inject_keywords (p : Payload) (jd_text : String)
    (caps : ℕ × ℕ × ℕ := (2, 2, 2)) : Payload :=
  inject_keywords_core (kwDiffCanon jd_text (payload_to_text p)) p caps

end Fat

/-- Python `re.search(r"\d", s) is not None`. -/
def containsDigitStr (s : String) : Bool :=
  s.toList.any isAsciiDigit

/-- The placeholder line inserted by `ensure_metric_shell`
(`HogueResMaster_v11_final_fat.py` line 281): it carries the explicit
`[CONFIRM]` unconfirmed-metric markers and no digit. -/
def metricPlaceholder : String :=
  "Improved adoption by [CONFIRM]% and renewal rate by [CONFIRM]% across assigned accounts."

namespace Fat

/-- Source `HogueResMaster_v11_final_fat.py` line 277: `ensure_metric_shell`.
Its digit test is `re.search(r"\d", x)`, the digit class.  (The
near-duplicate `inject_metric_shell` of `HogueResMaster_v9_2_2.py` differs
in exactly that test — see `V922.inject_metric_shell`.) -/
def ensure_metric_shell (p : Payload) : Payload :=
  match p.experience with
  | [] => p
  | j :: js =>
    if j.bullets.any containsDigitStr then p
    else { p with experience :=
        { j with bullets := metricPlaceholder :: j.bullets } :: js }

end Fat

namespace V922

/-- Source `HogueResMaster_v9_2_2.py` line 331: `inject_metric_shell`.
Its test on line 334 is `re.search(r"\\d", x)` — the raw string holds
backslash-backslash-d, so the regex matches the LITERAL two-character
substring backslash-d, not a digit.  This build therefore prepends the
placeholder unless some bullet contains that literal substring, even when
a bullet already contains a digit. -/
def inject_metric_shell (p : Payload) : Payload :=
  match p.experience with
  | [] => p
  | j :: js =>
    if j.bullets.any (fun x => containsSub x "\\d") then p
    else { p with experience :=
        { j with bullets := metricPlaceholder :: j.bullets } :: js }

end V922

/-! ### Evidence guard (`HogueResMaster_v11.py` lines 293-305) -/

/-- The characters at which Python `str.splitlines` breaks. -/
def isLineBreak (c : Char) : Bool :=
  c ∈ ['\x0a', '\x0b', '\x0c', '\x0d', '\x1c', '\x1d', '\x1e', '\x85',
       '\u2028', '\u2029']

/-- Python `str.splitlines`: accumulate the current line (reversed); `\r\n`
counts as a single break; a trailing break adds no empty final line. -/
def pySplitlinesAux : List Char → List Char → List String
  | [], acc => if acc.isEmpty then [] else [String.mk acc.reverse]
  | '\x0d' :: '\x0a' :: cs2, acc =>
    String.mk acc.reverse :: pySplitlinesAux cs2 []
  | c :: cs, acc =>
    if c = '\x0d' then String.mk acc.reverse :: pySplitlinesAux cs []
    else if isLineBreak c then String.mk acc.reverse :: pySplitlinesAux cs []
    else pySplitlinesAux cs (c :: acc)

/-- Python `str.splitlines()`. -/
def pySplitlines (s : String) : List String :=
  pySplitlinesAux s.toList []

/-- Source `HogueResMaster_v11.py` line 293: `evidence_guard`.  The body mirrors
the source: both branches of the per-line conditional keep the line. -/
def evidence_guard (cover_text resume_text jd_text : String) : String :=
  if !V11_evidence_only then cover_text
  else
    let basis := pyLower (resume_text ++ "\n" ++ jd_text)
    let lines := (pySplitlines cover_text).filter (fun ln => pyStrip ln ≠ "")
    let kept := lines.map (fun ln =>
      let words := ((alphaRuns (pyLower ln).toList).filter
        (fun r => 4 ≤ r.length)).map (fun r => String.mk r)
      if words.isEmpty ∨ ¬words.any (fun w => containsSub basis w) then ln
      else ln)
    String.intercalate "\n" kept

/-! ### Build signature (`HogueResMaster_v11.py` lines 121-123):
canonical JSON serialization (`json.dumps(..., sort_keys=True)`) followed
by SHA-256 -/

/-- A value of the `selection` dictionary passed to `build_signature`: a
string or a list of strings (the shapes `run_auto` actually builds). -/
inductive SelVal where
  | str : String → SelVal
  | strList : List String → SelVal
  deriving DecidableEq, Repr

/-- Lowercase hexadecimal digit. -/
def hexDigit (n : ℕ) : Char :=
  if n < 10 then Char.ofNat (48 + n) else Char.ofNat (87 + n)

/-- Four hexadecimal digits (for `\uXXXX` escapes). -/
def toHex4 (n : ℕ) : List Char :=
  [hexDigit (n / 4096 % 16), hexDigit (n / 256 % 16),
   hexDigit (n / 16 % 16), hexDigit (n % 16)]

/-- Python `json.dumps` escaping of one character with the default
`ensure_ascii=True`: the two-character escapes, `\u00XX` for remaining
control characters and `\uXXXX` (with surrogate pairs beyond the basic
plane) for every non-ASCII character, leaving printable ASCII intact. -/
def jescapeChar (c : Char) : List Char :=
  if c = '"' then ['\\', '"']
  else if c = '\\' then ['\\', '\\']
  else if c = '\x0a' then ['\\', 'n']
  else if c = '\x0d' then ['\\', 'r']
  else if c = '\x09' then ['\\', 't']
  else if c = '\x08' then ['\\', 'b']
  else if c = '\x0c' then ['\\', 'f']
  else if c.toNat < 32 ∨ 127 ≤ c.toNat then
    if c.toNat < 65536 then '\\' :: 'u' :: toHex4 c.toNat
    else
      ('\\' :: 'u' :: toHex4 (55296 + (c.toNat - 65536) / 1024)) ++
      ('\\' :: 'u' :: toHex4 (56320 + (c.toNat - 65536) % 1024))
  else [c]

/-- Python `json.dumps` escaping of a string body. -/
def jescape (s : String) : String :=
  String.mk (s.toList.flatMap jescapeChar)

/-- A serialized JSON string: `"…"` with the body escaped. -/
def dq (s : String) : String :=
  "\"" ++ jescape s ++ "\""

/-- Serialization of a `selection` value (`json.dumps` default separators:
`", "` between array items). -/
def dumpsSelVal : SelVal → String
  | .str v => dq v
  | .strList l => "[" ++ String.intercalate ", " (l.map dq) ++ "]"

/-- Key sorting `sort_keys=True`: object items ordered by key. -/
def sortByKey {β : Type} (kvs : List (String × β)) : List (String × β) :=
  List.insertionSort (fun a b => a.1 ≤ b.1) kvs

/-- Serialization of a string-valued JSON object with sorted keys
(`json.dumps` default separators: `", "` and `": "`). -/
def dumpsStrObj (kvs : List (String × String)) : String :=
  "\x7b" ++ String.intercalate ", "
    ((sortByKey kvs).map (fun kv => dq kv.1 ++ ": " ++ dq kv.2)) ++ "\x7d"

/-- Serialization of the `selection` JSON object with sorted keys. -/
def dumpsSelObj (kvs : List (String × SelVal)) : String :=
  "\x7b" ++ String.intercalate ", "
    ((sortByKey kvs).map (fun kv => dq kv.1 ++ ": " ++ dumpsSelVal kv.2)) ++
    "\x7d"

/-- The canonical blob hashed by `build_signature`:
`json.dumps({"resume": …, "jd": …, "person": …, "selection": …},
sort_keys=True)` — the four top-level keys serialize in sorted order
`"jd" < "person" < "resume" < "selection"`. -/
def signatureBlob (resume_text jd_text : String)
    (person : List (String × String)) (selection : List (String × SelVal)) :
    String :=
  "\x7b" ++ dq "jd" ++ ": " ++ dq jd_text ++ ", " ++
    dq "person" ++ ": " ++ dumpsStrObj person ++ ", " ++
    dq "resume" ++ ": " ++ dq resume_text ++ ", " ++
    dq "selection" ++ ": " ++ dumpsSelObj selection ++ "\x7d"

/-- Truncation to a 32-bit word. -/
def w32 (n : ℕ) : ℕ := n % 4294967296

/-- Right rotation of a 32-bit word `x < 2^32`. -/
def rotr (x n : ℕ) : ℕ :=
  (x >>> n) ||| w32 (x <<< (32 - n))

/-- The first 64 primes, from which the SHA-256 constants derive
(FIPS 180-4). -/
def SHA_PRIMES : List ℕ :=
  [2, 3, 5, 7, 11, 13, 17, 19, 23, 29, 31, 37, 41, 43, 47, 53, 59, 61, 67,
   71, 73, 79, 83, 89, 97, 101, 103, 107, 109, 113, 127, 131, 137, 139,
   149, 151, 157, 163, 167, 173, 179, 181, 191, 193, 197, 199, 211, 223,
   227, 229, 233, 239, 241, 251, 257, 263, 269, 271, 277, 281, 283, 293,
   307, 311]

/-- Bisection step for the integer cube root (fuel-driven; 64 halvings of
an initial bracket of width `2 ^ 40` more than suffice). -/
def icbrtAux (n : ℕ) : ℕ → ℕ → ℕ → ℕ
  | 0, lo, _ => lo
  | fuel + 1, lo, hi =>
    if hi ≤ lo + 1 then lo
    else
      let mid := (lo + hi) / 2
      if mid * mid * mid ≤ n then icbrtAux n fuel mid hi
      else icbrtAux n fuel lo mid

/-- Integer cube root for `n < 2 ^ 120`. -/
def icbrt (n : ℕ) : ℕ :=
  icbrtAux n 64 0 1099511627776

/-- The SHA-256 round constants: the first 32 bits of the fractional parts
of the cube roots of the first 64 primes —
`K[i] = floor(cbrt(p_i) * 2^32) mod 2^32 = icbrt(p_i * 2^96) mod 2^32`. -/
def SHA_K : List ℕ :=
  SHA_PRIMES.map (fun p => icbrt (p <<< 96) % 4294967296)

/-- The SHA-256 initial hash values: the first 32 bits of the fractional
parts of the square roots of the first 8 primes —
`H[i] = Nat.sqrt(p_i * 2^64) mod 2^32`. -/
def SHA_H0 : List ℕ :=
  (SHA_PRIMES.take 8).map (fun p => Nat.sqrt (p <<< 64) % 4294967296)

/-- Big-endian 8-byte encoding of the bit length. -/
def beBytes8 (n : ℕ) : List ℕ :=
  (List.range 8).map (fun i => (n >>> (8 * (7 - i))) % 256)

/-- SHA-256 padding: `0x80`, zeros to 56 mod 64, 8-byte bit length. -/
def sha256pad (msg : List ℕ) : List ℕ :=
  msg ++ [128] ++
    List.replicate ((56 + 64 - (msg.length + 1) % 64) % 64) 0 ++
    beBytes8 (8 * msg.length)

/-- Big-endian 32-bit word from four bytes. -/
def beWord (b : List ℕ) : ℕ :=
  b.getD 0 0 * 16777216 + b.getD 1 0 * 65536 + b.getD 2 0 * 256 + b.getD 3 0

/-- The sixteen message words of one 64-byte chunk. -/
def chunkWords (chunk : List ℕ) : List ℕ :=
  (List.range 16).map (fun i => beWord ((chunk.drop (4 * i)).take 4))

/-- Extend the message schedule by one word per step. -/
def scheduleAux : ℕ → List ℕ → List ℕ
  | 0, ws => ws
  | n + 1, ws =>
    let i := ws.length
    let w15 := ws.getD (i - 15) 0
    let w2 := ws.getD (i - 2) 0
    let w16 := ws.getD (i - 16) 0
    let w7 := ws.getD (i - 7) 0
    let s0 := (rotr w15 7) ^^^ (rotr w15 18) ^^^ (w15 >>> 3)
    let s1 := (rotr w2 17) ^^^ (rotr w2 19) ^^^ (w2 >>> 10)
    scheduleAux n (ws ++ [w32 (w16 + s0 + w7 + s1)])

/-- The 64-word SHA-256 message schedule. -/
def schedule (ws : List ℕ) : List ℕ :=
  scheduleAux 48 ws

/-- The eight SHA-256 working variables. -/
structure SHAState where
  va : ℕ
  vb : ℕ
  vc : ℕ
  vd : ℕ
  ve : ℕ
  vf : ℕ
  vg : ℕ
  vh : ℕ
  deriving DecidableEq, Repr

/-- One SHA-256 compression round. -/
def compressRound (s : SHAState) (k w : ℕ) : SHAState :=
  let bigS1 := (rotr s.ve 6) ^^^ (rotr s.ve 11) ^^^ (rotr s.ve 25)
  let ch := (s.ve &&& s.vf) ^^^ ((4294967295 - s.ve) &&& s.vg)
  let temp1 := w32 (s.vh + bigS1 + ch + k + w)
  let bigS0 := (rotr s.va 2) ^^^ (rotr s.va 13) ^^^ (rotr s.va 22)
  let maj := (s.va &&& s.vb) ^^^ (s.va &&& s.vc) ^^^ (s.vb &&& s.vc)
  let temp2 := w32 (bigS0 + maj)
  ⟨w32 (temp1 + temp2), s.va, s.vb, s.vc, w32 (s.vd + temp1),
   s.ve, s.vf, s.vg⟩

/-- Process one 64-byte chunk. -/
def processChunk (hs : List ℕ) (chunk : List ℕ) : List ℕ :=
  let ws := schedule (chunkWords chunk)
  let init : SHAState :=
    ⟨hs.getD 0 0, hs.getD 1 0, hs.getD 2 0, hs.getD 3 0,
     hs.getD 4 0, hs.getD 5 0, hs.getD 6 0, hs.getD 7 0⟩
  let fin := (SHA_K.zip ws).foldl
    (fun st kw => compressRound st kw.1 kw.2) init
  [w32 (hs.getD 0 0 + fin.va), w32 (hs.getD 1 0 + fin.vb),
   w32 (hs.getD 2 0 + fin.vc), w32 (hs.getD 3 0 + fin.vd),
   w32 (hs.getD 4 0 + fin.ve), w32 (hs.getD 5 0 + fin.vf),
   w32 (hs.getD 6 0 + fin.vg), w32 (hs.getD 7 0 + fin.vh)]

/-- Split a byte list into 64-byte chunks (fuel-driven; `fuel := length`
suffices since every step consumes 64 bytes). -/
def chunksAux : ℕ → List ℕ → List (List ℕ)
  | 0, _ => []
  | _ + 1, [] => []
  | fuel + 1, l => l.take 64 :: chunksAux fuel (l.drop 64)

/-- The 64-byte chunks of a padded message. -/
def chunks64 (l : List ℕ) : List (List ℕ) :=
  chunksAux l.length l

/-- Eight hexadecimal digits of a 32-bit word. -/
def toHex8 (n : ℕ) : List Char :=
  (List.range 8).map (fun i => hexDigit ((n >>> (4 * (7 - i))) % 16))

/-- SHA-256 of a byte sequence, as the lowercase hex digest (the model of
`hashlib.sha256(...).hexdigest()`). -/
def sha256hex (msg : List ℕ) : String :=
  String.mk ((((chunks64 (sha256pad msg)).foldl processChunk
    SHA_H0).map toHex8).flatten)

/-- UTF-8 bytes of the blob; the serialized blob is pure ASCII by
construction (`ensure_ascii`), so byte = code point. -/
def strBytes (s : String) : List ℕ :=
  s.toList.map Char.toNat

/-- Source `HogueResMaster_v11.py` line 121: `build_signature`. -/
def build_signature (resume_text jd_text : String)
    (person : List (String × String)) (selection : List (String × SelVal)) :
    String :=
  sha256hex (strBytes (signatureBlob resume_text jd_text person selection))

/-! ### `run_auto` (`HogueResMaster_v11.py` lines 578-649) as a state
machine over the persisted stores.  Per spec §1/§6, document conversion,
rendering, link checking and directory creation are external collaborators;
the modelled state is the session style-memory and the signature cache,
and every persisted write is recorded as an explicit effect event. -/

/-- An observable side effect of a `run_auto` call: a session-memory write
(`remember_style`), an artifact file write, or a cache record
(`mark_built`). -/
inductive Eff where
  | memWrite : List (String × SelVal) → Eff
  | artifact : String → Eff
  | cacheRecord : String → Eff
  deriving DecidableEq, Repr

/-- ASCII alphanumeric, the class `[A-Za-z0-9]` of `safe_name`. -/
def isAsciiAlnum (c : Char) : Bool :=
  isAsciiLetter c || isAsciiDigit c

/-- Python `re.sub(r"[^A-Za-z0-9]+", "_", ·)`: replace each maximal run of
non-alphanumeric characters by one underscore. -/
def usRuns : List Char → Bool → List Char
  | [], _ => []
  | c :: cs, true =>
    if isAsciiAlnum c then c :: usRuns cs false else usRuns cs true
  | c :: cs, false =>
    if isAsciiAlnum c then c :: usRuns cs false else '_' :: usRuns cs true

/-- Source `HogueResMaster_v11.py` line 150: `safe_name`. -/
def safe_name (s : String) : String :=
  let subbed := usRuns s.toList false
  let stripped :=
    ((subbed.dropWhile (· = '_')).reverse.dropWhile (· = '_')).reverse
  let t := stripped.take 64
  if t.isEmpty then "NA" else String.mk t

/-- The style display names of `base_name` (line 155). -/
def style_disp (style : String) : String :=
  if style = "classic" then "Classic"
  else if style = "hybrid" then "Hybrid"
  else if style = "tech_ic" then "Technical"
  else if style = "executive" then "Executive"
  else if style = "healthcare" then "Healthcare"
  else if style = "federal" then "Federal"
  else if style = "academic_cv" then "AcademicCV"
  else "Classic"

/-- Source `HogueResMaster_v11.py` line 154: `base_name`. -/
def base_name (first last company title style date_str : String) : String :=
  safe_name first ++ "_" ++ safe_name last ++ "_" ++ safe_name company ++
    "_" ++ safe_name title ++ "_" ++ style_disp style ++ "_" ++ date_str

/-- The artifact list returned by `generate_for_style` (line 566), in list
order: the seven core documents, then Variant B (always produced, since
the built-in payload has a first role with bullets and the variant flag
defaults on), then the USAJOBS checklist for the federal style. -/
def genStyleFiles (base : String) (isFederal : Bool) : List String :=
  [base ++ "_RESUME.docx", base ++ "_COVER.docx", base ++ "_COMBINED.docx",
   base ++ "_INTERVIEW_GUIDE.pdf", base ++ "_RUN_REPORT.pdf",
   base ++ "_REDLINE.pdf", base ++ "_ATS.docx"] ++
  (if V11_ab_bullet_variant then [base ++ "_RESUME_VARIANT_B.docx"]
   else []) ++
  (if isFederal ∧ V11_federal_gate then [base ++ "_USAJOBS_CHECKLIST.pdf"]
   else [])

/-- The artifact files in the order `generate_for_style` writes them
(lines 521-574): resume, variant, cover, run report, redline, interview
guide, combined, ATS copy, checklist. -/
def genStyleWrites (base : String) (isFederal : Bool) : List String :=
  [base ++ "_RESUME.docx"] ++
  (if V11_ab_bullet_variant then [base ++ "_RESUME_VARIANT_B.docx"]
   else []) ++
  [base ++ "_COVER.docx", base ++ "_RUN_REPORT.pdf", base ++ "_REDLINE.pdf",
   base ++ "_INTERVIEW_GUIDE.pdf", base ++ "_COMBINED.docx",
   base ++ "_ATS.docx"] ++
  (if isFederal ∧ V11_federal_gate then [base ++ "_USAJOBS_CHECKLIST.pdf"]
   else [])

/-- The `selection` dictionary built at the top of `run_auto` (line 582),
in insertion order. -/
def selectionOf (styles : List String) : List (String × SelVal) :=
  [("styles", SelVal.strList styles), ("length", SelVal.str "auto"),
   ("options", SelVal.strList ["combined", "zip"])]

/-- The observable outcome of one `run_auto` call: the returned file list,
the persisted-write events in program order, and the cache afterwards. -/
structure RunResult where
  files : List String
  events : List Eff
  cache : List String
  deriving DecidableEq, Repr

/-- Source `HogueResMaster_v11.py` line 578: `run_auto` over the persisted state.
In program order: `remember_style(selection)` writes the session memory
(style-memory flag on) BEFORE the cache check; the signature gate returns
an empty file list when the signature is cached; otherwise the per-style
artifacts and the deliverables zip are written and `mark_built(sig)` runs
exactly once at the end.  (`TODAY` is the `today` argument; Python indexes
`styles[0]` for the zip name, modelled with a default for the empty
list.) -/
def run_auto (cache : List String) (person : List (String × String))
    (company title resume_text jd_text : String) (styles : List String)
    (today : String) : RunResult :=
  let selection := selectionOf styles
  let memEvents := if V11_style_memory then [Eff.memWrite selection] else []
  let sig := if V11_idempotent_runs then
      build_signature resume_text jd_text person selection
    else ""
  if sig ≠ "" ∧ sig ∈ cache then
    { files := [], events := memEvents, cache := cache }
  else
    let first := (person.lookup "first").getD ""
    let last := (person.lookup "last").getD ""
    let allFiles := styles.flatMap (fun s =>
      genStyleFiles (base_name first last company title s today)
        (s = "federal"))
    let allWrites := styles.flatMap (fun s =>
      genStyleWrites (base_name first last company title s today)
        (s = "federal"))
    let zipName := base_name first last company title
      (styles.getD 0 "") today ++ "_DELIVERABLES.zip"
    let recEvents := if V11_idempotent_runs ∧ sig ≠ "" then
        [Eff.cacheRecord sig] else []
    { files := allFiles ++ [zipName],
      events := memEvents ++ allWrites.map Eff.artifact ++
        [Eff.artifact zipName] ++ recEvents,
      cache := if V11_idempotent_runs ∧ sig ≠ "" then sig :: cache
        else cache }

/-- Recognizer for cache-record effects. -/
def isCacheRecordEff : Eff → Bool
  | .cacheRecord _ => true
  | _ => false

/-! ## Theorems -/

/-! ### Structural lemmas about first-seen deduplication and tokenization -/

theorem dedupFirstAux_sublist (ts : List String) :
    ∀ seen, List.Sublist (dedupFirstAux ts seen) ts := by
  induction ts with
  | nil => intro seen; simp [dedupFirstAux]
  | cons t ts ih =>
    intro seen
    show List.Sublist (if t ∈ seen then dedupFirstAux ts seen
          else t :: dedupFirstAux ts (t :: seen)) (t :: ts)
    split
    · exact List.Sublist.cons t (ih seen)
    · exact List.Sublist.cons₂ t (ih (t :: seen))

theorem mem_dedupFirstAux {x : String} :
    ∀ ts seen, x ∈ dedupFirstAux ts seen → x ∈ ts ∧ x ∉ seen := by
  intro ts
  induction ts with
  | nil => intro seen h; simp [dedupFirstAux] at h
  | cons t ts ih =>
    intro seen h
    rw [show dedupFirstAux (t :: ts) seen
          = if t ∈ seen then dedupFirstAux ts seen
            else t :: dedupFirstAux ts (t :: seen) from rfl] at h
    by_cases hm : t ∈ seen
    · rw [if_pos hm] at h
      obtain ⟨h1, h2⟩ := ih seen h
      exact ⟨List.mem_cons_of_mem _ h1, h2⟩
    · rw [if_neg hm] at h
      rcases List.mem_cons.mp h with he | ht
      · exact ⟨by simp [he], he ▸ hm⟩
      · obtain ⟨h1, h2⟩ := ih (t :: seen) ht
        exact ⟨List.mem_cons_of_mem _ h1, fun hx => h2 (List.mem_cons_of_mem _ hx)⟩

theorem nodup_dedupFirstAux : ∀ ts seen, (dedupFirstAux ts seen).Nodup := by
  intro ts
  induction ts with
  | nil => intro seen; simp [dedupFirstAux]
  | cons t ts ih =>
    intro seen
    rw [show dedupFirstAux (t :: ts) seen
          = if t ∈ seen then dedupFirstAux ts seen
            else t :: dedupFirstAux ts (t :: seen) from rfl]
    by_cases hm : t ∈ seen
    · rw [if_pos hm]; exact ih seen
    · rw [if_neg hm]
      refine List.nodup_cons.mpr ⟨fun hx => ?_, ih (t :: seen)⟩
      exact (mem_dedupFirstAux ts (t :: seen) hx).2 (List.mem_cons_self t seen)

theorem alphaRunsAux_letters :
    ∀ (l acc : List Char), (∀ c ∈ acc, isAsciiLetter c) →
      ∀ r ∈ alphaRunsAux l acc, ∀ c ∈ r, isAsciiLetter c := by
  intro l
  induction l with
  | nil =>
    intro acc hacc r hr c hc
    by_cases he : acc.isEmpty <;> simp [alphaRunsAux, he] at hr
    subst hr
    exact hacc c (List.mem_reverse.mp hc)
  | cons a as ih =>
    intro acc hacc r hr c hc
    rw [show alphaRunsAux (a :: as) acc
          = if isAsciiLetter a then alphaRunsAux as (a :: acc)
            else if acc.isEmpty then alphaRunsAux as []
            else acc.reverse :: alphaRunsAux as [] from rfl] at hr
    by_cases hl : isAsciiLetter a
    · rw [if_pos hl] at hr
      refine ih (a :: acc) ?_ r hr c hc
      intro x hx
      rcases List.mem_cons.mp hx with hx | hx
      · exact hx ▸ hl
      · exact hacc x hx
    · rw [if_neg hl] at hr
      by_cases he : acc.isEmpty
      · rw [if_pos he] at hr
        exact ih [] (by simp) r hr c hc
      · rw [if_neg he] at hr
        rcases List.mem_cons.mp hr with hre | hrt
        · exact hacc c (List.mem_reverse.mp (hre ▸ hc))
        · exact ih [] (by simp) r hrt c hc

theorem alphaRunsAux_chars :
    ∀ (l acc : List Char), ∀ r ∈ alphaRunsAux l acc, ∀ c ∈ r,
      c ∈ l ∨ c ∈ acc := by
  intro l
  induction l with
  | nil =>
    intro acc r hr c hc
    by_cases he : acc.isEmpty <;> simp [alphaRunsAux, he] at hr
    subst hr
    exact Or.inr (List.mem_reverse.mp hc)
  | cons a as ih =>
    intro acc r hr c hc
    rw [show alphaRunsAux (a :: as) acc
          = if isAsciiLetter a then alphaRunsAux as (a :: acc)
            else if acc.isEmpty then alphaRunsAux as []
            else acc.reverse :: alphaRunsAux as [] from rfl] at hr
    by_cases hl : isAsciiLetter a
    · rw [if_pos hl] at hr
      rcases ih (a :: acc) r hr c hc with h | h
      · exact Or.inl (List.mem_cons_of_mem _ h)
      · rcases List.mem_cons.mp h with h | h
        · exact Or.inl (by simp [h])
        · exact Or.inr h
    · rw [if_neg hl] at hr
      by_cases he : acc.isEmpty
      · rw [if_pos he] at hr
        rcases ih [] r hr c hc with h | h
        · exact Or.inl (List.mem_cons_of_mem _ h)
        · simp at h
      · rw [if_neg he] at hr
        rcases List.mem_cons.mp hr with hre | hrt
        · exact Or.inr (List.mem_reverse.mp (hre ▸ hc))
        · rcases ih [] r hrt c hc with h | h
          · exact Or.inl (List.mem_cons_of_mem _ h)
          · simp at h

theorem toLower_lower_of_letter (c : Char)
    (h : isAsciiLetter (Char.toLower c)) : isLowerAZ (Char.toLower c) := by
  unfold Char.toLower at *
  by_cases hc : c.toNat ≥ 65 ∧ c.toNat ≤ 90
  · rw [if_pos hc] at h ⊢
    obtain ⟨h1, h2⟩ := hc
    have hv : (Char.ofNat (c.toNat + 32)).toNat = c.toNat + 32 := by
      set n := c.toNat with hn
      interval_cases n <;> decide
    simp only [isLowerAZ, hv]
    simp only [Bool.and_eq_true, decide_eq_true_eq]
    omega
  · rw [if_neg hc] at h ⊢
    simp only [isAsciiLetter, Bool.or_eq_true, Bool.and_eq_true,
      decide_eq_true_eq] at h
    simp only [isLowerAZ, Bool.and_eq_true, decide_eq_true_eq]
    omega

theorem kwListProps (toks : List String) (cap : ℕ) :
    ((dedupFirstAux toks []).take cap).Nodup ∧
    ((dedupFirstAux toks []).take cap).length ≤ cap ∧
    List.Sublist ((dedupFirstAux toks []).take cap) toks :=
  ⟨(nodup_dedupFirstAux toks []).sublist (List.take_sublist cap _),
   List.length_take_le cap _,
   (List.take_sublist cap _).trans (dedupFirstAux_sublist toks [])⟩

theorem mem_clean_tokens_v11 {t : String} {text : String}
    (h : t ∈ V11.clean_tokens text) :
    2 ≤ t.length ∧ ∀ c ∈ t.toList, isLowerAZ c := by
  unfold V11.clean_tokens at h
  obtain ⟨r, hr, hmk⟩ := List.mem_map.mp h
  obtain ⟨hrr, hlen⟩ := List.mem_filter.mp hr
  subst hmk
  refine ⟨by simpa using of_decide_eq_true hlen, ?_⟩
  intro c hc
  have hc' : c ∈ r := hc
  have hletter : isAsciiLetter c :=
    alphaRunsAux_letters (pyLower text).toList [] (by simp) r hrr c hc'
  have hfrom : c ∈ (pyLower text).toList ∨ c ∈ ([] : List Char) :=
    alphaRunsAux_chars (pyLower text).toList [] r hrr c hc'
  rcases hfrom with hfrom | hfrom
  · have : c ∈ text.toList.map Char.toLower := hfrom
    obtain ⟨c₀, _, hc₀⟩ := List.mem_map.mp this
    subst hc₀
    exact toLower_lower_of_letter c₀ hletter
  · simp at hfrom

theorem mem_clean_tokens_fat {t : String} {text : String}
    (h : t ∈ Fat.clean_tokens text) :
    (2 ≤ t.length ∧ ∀ c ∈ t.toList, isLowerAZ c) ∧ t ∉ STOPWORDS := by
  unfold Fat.clean_tokens at h
  obtain ⟨hmem, hstop⟩ := List.mem_filter.mp h
  refine ⟨mem_clean_tokens_v11 (by simpa [V11.clean_tokens] using hmem), ?_⟩
  intro hx
  simp [hx] at hstop

/-- Claim C8 (corrected): for every `text` and `cap`, the fat build's
`kw_set text cap` is duplicate-free, of cardinality at most `cap`, a
subsequence of the token stream (first-seen deduplication order), and each
element is a lowercase alphabetic token of length ≥ 2 that is not a
stopword; the v11 build's `kw_set` satisfies all of this except stopword
removal — its `clean_tokens` applies no stopword filter (see the
counterexample). -/
theorem C8_kw_set_invariants (text : String) (cap : ℕ) :
    ((Fat.kw_set text cap).Nodup ∧ (Fat.kw_set text cap).length ≤ cap ∧
      List.Sublist (Fat.kw_set text cap) (Fat.clean_tokens text) ∧
      (∀ t ∈ Fat.kw_set text cap,
        (2 ≤ t.length ∧ ∀ c ∈ t.toList, isLowerAZ c) ∧ t ∉ STOPWORDS)) ∧
    ((V11.kw_set text cap).Nodup ∧ (V11.kw_set text cap).length ≤ cap ∧
      List.Sublist (V11.kw_set text cap) (V11.clean_tokens text) ∧
      (∀ t ∈ V11.kw_set text cap,
        2 ≤ t.length ∧ ∀ c ∈ t.toList, isLowerAZ c)) := by
  obtain ⟨fn, fl, fs⟩ := kwListProps (Fat.clean_tokens text) cap
  obtain ⟨vn, vl, vs⟩ := kwListProps (V11.clean_tokens text) cap
  exact ⟨⟨fn, fl, fs, fun t ht => mem_clean_tokens_fat (fs.mem ht)⟩,
         ⟨vn, vl, vs, fun t ht => mem_clean_tokens_v11 (vs.mem ht)⟩⟩

/-- Claim C8 counterexample: the claim asserts stopword removal for the
cited `kw_set`s, but `HogueResMaster_v11.py`'s `clean_tokens` (line 202)
applies no stopword filter, so the stopword "the" appears in
`V11.kw_set "the cat"`. -/
theorem C8_counterexample :
    "the" ∈ STOPWORDS ∧ "the" ∈ V11.kw_set "the cat" := by
  constructor <;> decide

/-- Claim C1 (confirmed): for every jobText and candidateText the composite
score satisfies `hire = round(0.5*coverage + 0.5*scanHealth)` (banker's
rounding of the half-sum, exactly Python's `int(round(...))` here), the
reported grade is the spec's step function of `hire`, the grading chain of
both builds coincides with the spec table everywhere, and in particular
97 ↦ "A+" and 96 ↦ "A". -/
theorem C1_composite_hire_grade (jd txt : String) :
    (V11.composite_scores jd txt).hire =
      pyRoundDiv ((V11.composite_scores jd txt).matchScore +
        (V11.composite_scores jd txt).scan) 2 ∧
    (V11.composite_scores jd txt).grade =
      specGrade ((V11.composite_scores jd txt).hire) ∧
    (∀ x : ℕ, Fat.letter_grade x = specGrade x) ∧
    Fat.letter_grade 97 = "A+" ∧ Fat.letter_grade 96 = "A" :=
  ⟨rfl, rfl, fun _ => rfl, rfl, rfl⟩

/-- Claim C7 (corrected): if the job text has at least one keyword and the
candidate keyword set contains every job keyword, coverage is 100.  (The
claim's original premise — jobText merely a non-empty string — is refuted
by the counterexample below.) -/
theorem C7_full_coverage (jd txt : String)
    (h1 : V11.kw_set jd ≠ [])
    (h2 : ∀ t ∈ V11.kw_set jd, t ∈ V11.kw_set txt) :
    (V11.composite_scores jd txt).matchScore = 100 := by
  have hfilter : (V11.kw_set jd).filter (fun t => decide (t ∈ V11.kw_set txt))
      = V11.kw_set jd :=
    List.filter_eq_self.mpr (fun a ha => decide_eq_true (h2 a ha))
  have hL : 1 ≤ (V11.kw_set jd).length :=
    List.length_pos.mpr h1
  show pyRoundDiv (100 * V11.interCard (V11.kw_set jd) (V11.kw_set txt))
      (max 1 (V11.kw_set jd).length) = 100
  unfold V11.interCard
  rw [hfilter]
  set L := (V11.kw_set jd).length with hLdef
  have hmax : max 1 L = L := Nat.max_eq_right hL
  rw [hmax]
  unfold pyRoundDiv
  have hdvd : (100 * L) % L = 0 := Nat.mul_mod_left 100 L
  have hq : (100 * L) / L = 100 := Nat.mul_div_cancel 100 (by omega)
  rw [hdvd, hq]
  simp [hL]

/-- Witness for C7: a concrete job/candidate pair satisfying the premises,
with coverage 100 obtained from the theorem. -/
theorem C7_witness :
    (V11.kw_set "alpha beta" ≠ [] ∧
      ∀ t ∈ V11.kw_set "alpha beta", t ∈ V11.kw_set "beta gamma alpha") ∧
    (V11.composite_scores "alpha beta" "beta gamma alpha").matchScore = 100 :=
  ⟨⟨by decide, by decide⟩, C7_full_coverage _ _ (by decide) (by decide)⟩

/-- Claim C7 counterexample: the job text "!" is a non-empty string whose
keyword set is empty, so the superset premise holds vacuously for an empty
candidate, yet coverage is 0, not 100. -/
theorem C7_counterexample :
    ("!" : String) ≠ "" ∧
    (∀ t ∈ V11.kw_set "!", t ∈ V11.kw_set "") ∧
    (V11.composite_scores "!" "").matchScore = 0 := by
  refine ⟨by decide, by decide, by decide⟩

theorem bool_eq_false_of_not {b : Bool} (h : ¬b = true) : b = false := by
  cases hb : b
  · rfl
  · exact absurd hb h

theorem headNoWs_dropWhile (l : List Char) :
    headNoWs (l.dropWhile isPySpace) := by
  induction l with
  | nil => intro c hc; simp at hc
  | cons a as ih =>
    by_cases ha : isPySpace a
    · simpa [List.dropWhile_cons, ha] using ih
    · intro c hc
      simp [List.dropWhile_cons, ha] at hc
      rw [← hc]
      exact bool_eq_false_of_not ha

theorem dropWhile_eq_self_of_headNoWs {l : List Char}
    (h : headNoWs l) : l.dropWhile isPySpace = l := by
  cases l with
  | nil => rfl
  | cons a as =>
    have := h a (by simp)
    simp [List.dropWhile_cons, this]

theorem headNoWs_stripList (l : List Char) : headNoWs (stripList l) := by
  intro c hc
  have hc' : ((l.dropWhile isPySpace).reverse.dropWhile isPySpace).getLast?
      = some c := by
    have hrw : (stripList l).head?
        = ((l.dropWhile isPySpace).reverse.dropWhile isPySpace).getLast? :=
      List.head?_reverse _
    rw [hrw] at hc
    exact hc
  rcases hveq : (l.dropWhile isPySpace).reverse.dropWhile isPySpace
      with _ | ⟨a, as⟩
  · rw [hveq] at hc'; simp at hc'
  · have hne : (l.dropWhile isPySpace).reverse.dropWhile isPySpace ≠ [] := by
      rw [hveq]; simp
    have h1 : ((l.dropWhile isPySpace).reverse).getLast?
        = ((l.dropWhile isPySpace).reverse.dropWhile isPySpace).getLast? := by
      conv_lhs =>
        rw [← List.takeWhile_append_dropWhile isPySpace
          (l.dropWhile isPySpace).reverse]
      exact List.getLast?_append_of_ne_nil _ hne
    have h2 : (l.dropWhile isPySpace).head? = some c := by
      rw [← List.getLast?_reverse, h1]
      exact hc'
    exact headNoWs_dropWhile l c h2

theorem lastNoWs_stripList (l : List Char) : lastNoWs (stripList l) := by
  intro c hc
  have : ((l.dropWhile isPySpace).reverse.dropWhile isPySpace).head? = some c := by
    have hrw : (stripList l).getLast?
        = ((l.dropWhile isPySpace).reverse.dropWhile isPySpace).head? :=
      List.getLast?_reverse _
    rw [hrw] at hc
    exact hc
  exact headNoWs_dropWhile _ c this

theorem headNoWs_squish_true (l : List Char) :
    headNoWs (squishAux l true) := by
  induction l with
  | nil => intro c hc; simp [squishAux] at hc
  | cons a as ih =>
    by_cases ha : isPySpace a
    · simpa [squishAux, ha] using ih
    · intro c hc
      simp [squishAux, ha] at hc
      rw [← hc]
      exact bool_eq_false_of_not ha

theorem squish_cons_true (a : Char) (as : List Char) :
    squishAux (a :: as) true
      = if isPySpace a then squishAux as true else a :: squishAux as false :=
  rfl

theorem squish_cons_false (a : Char) (as : List Char) :
    squishAux (a :: as) false
      = if isPySpace a then ' ' :: squishAux as true
        else a :: squishAux as false :=
  rfl

theorem squish_ne_nil (l : List Char) (hl : lastNoWs l) (hne : l ≠ []) :
    ∀ b, squishAux l b ≠ [] := by
  induction l with
  | nil => exact absurd rfl hne
  | cons a as ih =>
    intro b
    cases as with
    | nil =>
      have hna : isPySpace a = false := hl a (by simp)
      cases b
      · rw [squish_cons_false, if_neg (by simp [hna])]; simp
      · rw [squish_cons_true, if_neg (by simp [hna])]; simp
    | cons d ds =>
      have hl' : lastNoWs (d :: ds) := by
        intro c hc
        exact hl c (by rw [List.getLast?_cons_cons]; exact hc)
      by_cases ha : isPySpace a
      · cases b
        · rw [squish_cons_false, if_pos ha]; simp
        · rw [squish_cons_true, if_pos ha]
          exact ih hl' (by simp) true
      · cases b
        · rw [squish_cons_false, if_neg ha]; simp
        · rw [squish_cons_true, if_neg ha]; simp

theorem lastNoWs_squish (l : List Char) (hl : lastNoWs l) :
    ∀ b, lastNoWs (squishAux l b) := by
  induction l with
  | nil => intro b c hc; simp [squishAux] at hc
  | cons a as ih =>
    intro b
    cases as with
    | nil =>
      have hna : isPySpace a = false := hl a (by simp)
      intro c hc
      cases b
      · rw [squish_cons_false, if_neg (by simp [hna])] at hc
        simp [squishAux] at hc
        rw [← hc]; exact hna
      · rw [squish_cons_true, if_neg (by simp [hna])] at hc
        simp [squishAux] at hc
        rw [← hc]; exact hna
    | cons d ds =>
      have hl' : lastNoWs (d :: ds) := by
        intro c hc
        exact hl c (by rw [List.getLast?_cons_cons]; exact hc)
      have hwne : squishAux (d :: ds) true ≠ [] :=
        squish_ne_nil (d :: ds) hl' (by simp) true
      have hwne' : squishAux (d :: ds) false ≠ [] :=
        squish_ne_nil (d :: ds) hl' (by simp) false
      have hcons : ∀ (x : Char) (w : List Char), w ≠ [] →
          ∀ c, (x :: w).getLast? = some c → w.getLast? = some c := by
        intro x w hwn c hc
        rcases w with _ | ⟨y, ys⟩
        · exact absurd rfl hwn
        · rw [List.getLast?_cons_cons] at hc
          exact hc
      by_cases ha : isPySpace a
      · cases b with
        | true =>
          intro c hc
          rw [squish_cons_true, if_pos ha] at hc
          exact ih hl' true c hc
        | false =>
          intro c hc
          rw [squish_cons_false, if_pos ha] at hc
          exact ih hl' true c (hcons ' ' _ hwne c hc)
      · cases b with
        | true =>
          intro c hc
          rw [squish_cons_true, if_neg ha] at hc
          exact ih hl' false c (hcons a _ hwne' c hc)
        | false =>
          intro c hc
          rw [squish_cons_false, if_neg ha] at hc
          exact ih hl' false c (hcons a _ hwne' c hc)

theorem squish_allSpGood (l : List Char) :
    ∀ b, allSpGood (squishAux l b) := by
  induction l with
  | nil => intro b c hc; simp [squishAux] at hc
  | cons a as ih =>
    intro b c hc hsp
    by_cases ha : isPySpace a
    · cases b with
      | true =>
        rw [squish_cons_true, if_pos ha] at hc
        exact ih true c hc hsp
      | false =>
        rw [squish_cons_false, if_pos ha] at hc
        rcases List.mem_cons.mp hc with h | h
        · exact h
        · exact ih true c h hsp
    · cases b with
      | true =>
        rw [squish_cons_true, if_neg ha] at hc
        rcases List.mem_cons.mp hc with h | h
        · subst h; exact absurd hsp ha
        · exact ih false c h hsp
      | false =>
        rw [squish_cons_false, if_neg ha] at hc
        rcases List.mem_cons.mp hc with h | h
        · subst h; exact absurd hsp ha
        · exact ih false c h hsp

theorem squish_noTwoWs (l : List Char) : ∀ b, noTwoWs (squishAux l b) := by
  induction l with
  | nil => intro b; simp [squishAux, noTwoWs]
  | cons a as ih =>
    intro b
    by_cases ha : isPySpace a
    · cases b with
      | true =>
        rw [squish_cons_true, if_pos ha]
        exact ih true
      | false =>
        rw [squish_cons_false, if_pos ha]
        rcases he : squishAux as true with _ | ⟨d, ds⟩
        · simp [noTwoWs]
        · refine List.chain'_cons.mpr ⟨?_, he ▸ ih true⟩
          have hd : isPySpace d = false :=
            headNoWs_squish_true as d (by rw [he]; rfl)
          intro hcon
          rw [hd] at hcon
          exact absurd hcon.2 (by simp)
    · have hstep : squishAux (a :: as) b = a :: squishAux as false := by
        cases b
        · rw [squish_cons_false, if_neg ha]
        · rw [squish_cons_true, if_neg ha]
      rw [hstep]
      rcases he : squishAux as false with _ | ⟨d, ds⟩
      · simp [noTwoWs]
      · refine List.chain'_cons.mpr ⟨?_, he ▸ ih false⟩
        intro hcon
        exact absurd hcon.1 ha

theorem squish_fix (l : List Char) (h1 : allSpGood l) (h2 : noTwoWs l) :
    squishAux l false = l ∧ (headNoWs l → squishAux l true = l) := by
  induction l with
  | nil => exact ⟨rfl, fun _ => rfl⟩
  | cons a as ih =>
    have h1t : allSpGood as := fun c hc => h1 c (List.mem_cons_of_mem _ hc)
    have h2t : noTwoWs as := h2.tail
    obtain ⟨ihf, iht⟩ := ih h1t h2t
    by_cases ha : isPySpace a
    · have haeq : a = ' ' := h1 a (by simp) (by simpa using ha)
      have hasnext : headNoWs as := by
        intro c hc
        cases as with
        | nil => simp at hc
        | cons d ds =>
          have hR := (List.chain'_cons.mp h2).1
          simp at hc
          rw [← hc]
          cases hx : isPySpace d
          · rfl
          · exact absurd ⟨by simpa using ha, hx⟩ hR
      refine ⟨?_, ?_⟩
      · rw [squish_cons_false, if_pos ha, iht hasnext, haeq]
      · intro hhead
        have := hhead a (by simp)
        rw [this] at ha
        exact absurd ha (by simp)
    · refine ⟨?_, fun _ => ?_⟩
      · rw [squish_cons_false, if_neg ha, ihf]
      · rw [squish_cons_true, if_neg ha, ihf]

/-- The bullet normalization of `tighten_bullets` is idempotent. -/
theorem normalizeWs_idem (b : String) :
    normalizeWs (normalizeWs b) = normalizeWs b := by
  have hhead : headNoWs (squishAux (stripList b.toList) false) := by
    rcases hs : stripList b.toList with _ | ⟨a, as⟩
    · intro c hc; simp [squishAux] at hc
    · have hna : isPySpace a = false := by
        have := headNoWs_stripList b.toList
        rw [hs] at this
        exact this a (by simp)
      rw [squish_cons_false, if_neg (by simp [hna])]
      intro c hc
      simp at hc
      rw [← hc]; exact hna
  have hlast : lastNoWs (squishAux (stripList b.toList) false) :=
    lastNoWs_squish _ (lastNoWs_stripList b.toList) false
  have hstripfix : stripList (squishAux (stripList b.toList) false)
      = squishAux (stripList b.toList) false := by
    generalize hw : squishAux (stripList b.toList) false = w at hhead hlast
    unfold stripList
    rw [dropWhile_eq_self_of_headNoWs hhead]
    have hrev : headNoWs w.reverse := by
      intro c hc
      rw [List.head?_reverse] at hc
      exact hlast c hc
    rw [dropWhile_eq_self_of_headNoWs hrev, List.reverse_reverse]
  have hsquishfix : squishAux (squishAux (stripList b.toList) false) false
      = squishAux (stripList b.toList) false :=
    (squish_fix _ (squish_allSpGood _ false) (squish_noTwoWs _ false)).1
  have key : squishAux (stripList (squishAux (stripList b.toList) false)) false
      = squishAux (stripList b.toList) false := by
    rw [hstripfix, hsquishfix]
  calc normalizeWs (normalizeWs b)
      = String.mk (squishAux (stripList
          (squishAux (stripList b.toList) false)) false) := rfl
    _ = String.mk (squishAux (stripList b.toList) false) :=
        congrArg String.mk key
    _ = normalizeWs b := rfl

theorem tightenGo_cons (maxPer : ℕ) (b : String) (bs seen : List String)
    (cnt : ℕ) :
    tightenGo maxPer (b :: bs) seen cnt
      = if normalizeWs b = "" then tightenGo maxPer bs seen cnt
        else if pyLower (normalizeWs b) ∈ seen then tightenGo maxPer bs seen cnt
        else if maxPer ≤ cnt + 1 then [pyTake (normalizeWs b) 180]
        else pyTake (normalizeWs b) 180 ::
          tightenGo maxPer bs (pyLower (normalizeWs b) :: seen) (cnt + 1) :=
  rfl

theorem pyTake_eq_self {s : String} (h : s.toList.length ≤ 180) :
    pyTake s 180 = s := by
  unfold pyTake
  rw [List.take_of_length_le h]
  obtain ⟨d⟩ := s
  rfl

theorem pyTake_length (s : String) : (pyTake s 180).toList.length ≤ 180 := by
  unfold pyTake
  exact List.length_take_le 180 s.toList

theorem tightenGo_length (maxPer : ℕ) :
    ∀ bs seen cnt, cnt < maxPer →
      (tightenGo maxPer bs seen cnt).length + cnt ≤ maxPer := by
  intro bs
  induction bs with
  | nil => intro seen cnt h; simp [tightenGo]; omega
  | cons b bs ih =>
    intro seen cnt h
    rw [tightenGo_cons]
    by_cases h1 : normalizeWs b = ""
    · rw [if_pos h1]; exact ih seen cnt h
    · rw [if_neg h1]
      by_cases h2 : pyLower (normalizeWs b) ∈ seen
      · rw [if_pos h2]; exact ih seen cnt h
      · rw [if_neg h2]
        by_cases h3 : maxPer ≤ cnt + 1
        · rw [if_pos h3]; simp; omega
        · rw [if_neg h3]
          have := ih (pyLower (normalizeWs b) :: seen) (cnt + 1) (by omega)
          simp only [List.length_cons]
          omega

theorem tightenGo_zero_length :
    ∀ (bs seen : List String) (cnt : ℕ),
      (tightenGo 0 bs seen cnt).length ≤ 1 := by
  intro bs
  induction bs with
  | nil => intro seen cnt; simp [tightenGo]
  | cons b bs ih =>
    intro seen cnt
    rw [tightenGo_cons]
    by_cases h1 : normalizeWs b = ""
    · rw [if_pos h1]; exact ih seen cnt
    · rw [if_neg h1]
      by_cases h2 : pyLower (normalizeWs b) ∈ seen
      · rw [if_pos h2]; exact ih seen cnt
      · rw [if_neg h2, if_pos (by omega : (0 : ℕ) ≤ cnt + 1)]
        simp

theorem tightenGo_entries (maxPer : ℕ) :
    ∀ (bs seen : List String) (cnt : ℕ),
      (∀ b ∈ bs, (normalizeWs b).toList.length ≤ 180) →
      ((∀ e ∈ tightenGo maxPer bs seen cnt,
          e ≠ "" ∧ normalizeWs e = e ∧ e.toList.length ≤ 180 ∧
            pyLower e ∉ seen) ∧
        (tightenGo maxPer bs seen cnt).Pairwise
          (fun a b => pyLower a ≠ pyLower b)) := by
  intro bs
  induction bs with
  | nil => intro seen cnt _; simp [tightenGo]
  | cons b bs ih =>
    intro seen cnt hlen
    have hlenb : (normalizeWs b).toList.length ≤ 180 := hlen b (by simp)
    have hlent : ∀ x ∈ bs, (normalizeWs x).toList.length ≤ 180 :=
      fun x hx => hlen x (List.mem_cons_of_mem _ hx)
    have htake : pyTake (normalizeWs b) 180 = normalizeWs b :=
      pyTake_eq_self hlenb
    rw [tightenGo_cons]
    by_cases h1 : normalizeWs b = ""
    · rw [if_pos h1]; exact ih seen cnt hlent
    · rw [if_neg h1]
      by_cases h2 : pyLower (normalizeWs b) ∈ seen
      · rw [if_pos h2]; exact ih seen cnt hlent
      · rw [if_neg h2]
        by_cases h3 : maxPer ≤ cnt + 1
        · rw [if_pos h3]
          refine ⟨?_, by simp⟩
          intro e he
          simp at he
          subst he
          rw [htake]
          exact ⟨h1, normalizeWs_idem b, hlenb, h2⟩
        · rw [if_neg h3]
          obtain ⟨ihent, ihpair⟩ :=
            ih (pyLower (normalizeWs b) :: seen) (cnt + 1) hlent
          constructor
          · intro e he
            rcases List.mem_cons.mp he with he | he
            · subst he
              rw [htake]
              exact ⟨h1, normalizeWs_idem b, hlenb, h2⟩
            · obtain ⟨e1, e2, e3, e4⟩ := ihent e he
              exact ⟨e1, e2, e3, fun hx => e4 (List.mem_cons_of_mem _ hx)⟩
          · refine List.pairwise_cons.mpr ⟨?_, ihpair⟩
            intro e he
            obtain ⟨_, _, _, e4⟩ := ihent e he
            rw [htake]
            intro hx
            exact e4 (by rw [← hx]; exact List.mem_cons_self _ _)

theorem tightenGo_fix (maxPer : ℕ) :
    ∀ (l seen : List String) (cnt : ℕ),
      (∀ e ∈ l, e ≠ "" ∧ normalizeWs e = e ∧ e.toList.length ≤ 180 ∧
        pyLower e ∉ seen) →
      l.Pairwise (fun a b => pyLower a ≠ pyLower b) →
      (cnt + l.length ≤ maxPer ∨ l.length ≤ 1) →
      tightenGo maxPer l seen cnt = l := by
  intro l
  induction l with
  | nil => intro seen cnt _ _ _; rfl
  | cons e es ih =>
    intro seen cnt hent hpair hbound
    obtain ⟨h1, h2, h3, h4⟩ := hent e (by simp)
    have htake : pyTake (normalizeWs e) 180 = normalizeWs e := by
      rw [h2]; exact pyTake_eq_self (h2 ▸ h3)
    rw [tightenGo_cons, if_neg (by rw [h2]; exact h1), if_neg (by rw [h2]; exact h4)]
    by_cases h5 : maxPer ≤ cnt + 1
    · rw [if_pos h5]
      have hes : es = [] := by
        rcases hbound with hb | hb
        · simp only [List.length_cons] at hb
          have : es.length = 0 := by omega
          exact List.length_eq_zero.mp this
        · simp only [List.length_cons] at hb
          have : es.length = 0 := by omega
          exact List.length_eq_zero.mp this
      rw [hes, htake, h2]
    · rw [if_neg h5, htake, h2]
      congr 1
      refine ih (pyLower e :: seen) (cnt + 1) ?_ (List.Pairwise.sublist (by simp) hpair) ?_
      · intro x hx
        obtain ⟨x1, x2, x3, x4⟩ := hent x (List.mem_cons_of_mem _ hx)
        refine ⟨x1, x2, x3, ?_⟩
        intro hmem
        rcases List.mem_cons.mp hmem with hkey | hmem'
        · exact (List.pairwise_cons.mp hpair).1 x hx hkey.symm
        · exact x4 hmem'
      · rcases hbound with hb | hb
        · left; simp only [List.length_cons] at hb; omega
        · right
          simp only [List.length_cons] at hb
          omega

set_option maxRecDepth 100000 in
/-- Claim C3 counterexample: with cap `n = 0` the output of
`tighten_bullets` still holds one entry (the loop appends before checking
the cap), and on two 181-character bullets differing only in their last
character the output contains the same entry twice (deduplication happens
before the 180-character truncation), so the output is not
case-insensitively duplicate-free and a second application shrinks it —
`tighten` is not idempotent as claimed. -/
theorem C3_counterexample :
    (tighten_bullets ["a"] 0).length = 1 ∧
    tighten_bullets [longBulletA, longBulletB] 6 = [longBulletX, longBulletX] ∧
    tighten_bullets (tighten_bullets [longBulletA, longBulletB] 6) 6
      ≠ tighten_bullets [longBulletA, longBulletB] 6 := by
  refine ⟨by decide, by decide, by decide⟩

/-- Claim C3 (corrected): the output of `tighten_bullets x n` has length at
most `n` whenever `n ≥ 1` (for `n = 0` it can hold one entry); and when
every bullet's whitespace-normalized form has at most 180 characters —
so the truncation `t[:180]` is the identity — `tighten` is idempotent and
no two output entries are case-insensitively equal. -/
theorem C3_tighten_props (x : List String) (n : ℕ) :
    (1 ≤ n → (tighten_bullets x n).length ≤ n) ∧
    ((∀ b ∈ x, (normalizeWs b).length ≤ 180) →
      tighten_bullets (tighten_bullets x n) n = tighten_bullets x n ∧
      (tighten_bullets x n).Pairwise (fun a b => pyLower a ≠ pyLower b)) := by
  have hunfold : tighten_bullets x n = tightenGo n x [] 0 := rfl
  constructor
  · intro hn
    rw [hunfold]
    have := tightenGo_length n x [] 0 (by omega)
    omega
  · intro H
    have H' : ∀ b ∈ x, (normalizeWs b).toList.length ≤ 180 := H
    obtain ⟨hent, hpair⟩ := tightenGo_entries n x [] 0 H'
    constructor
    · rw [hunfold]
      show tightenGo n (tightenGo n x [] 0) [] 0 = tightenGo n x [] 0
      apply tightenGo_fix
      · intro e he
        obtain ⟨e1, e2, e3, _⟩ := hent e he
        exact ⟨e1, e2, e3, by simp⟩
      · exact hpair
      · by_cases hn : 1 ≤ n
        · left
          have := tightenGo_length n x [] 0 (by omega)
          omega
        · right
          have hn0 : n = 0 := by omega
          subst hn0
          exact tightenGo_zero_length x [] 0
    · rw [hunfold]
      exact hpair

/-- Witness for C3: a concrete bullet list with duplicates, blanks and
ragged whitespace; applying the theorem with its hypotheses discharged
gives the cap, idempotence and distinctness for it. -/
theorem C3_witness :
    (tighten_bullets ["Led  the team", "", "led the  team", "Shipped v2"] 6).length ≤ 6 ∧
    tighten_bullets (tighten_bullets ["Led  the team", "", "led the  team", "Shipped v2"] 6) 6
      = tighten_bullets ["Led  the team", "", "led the  team", "Shipped v2"] 6 ∧
    (tighten_bullets ["Led  the team", "", "led the  team", "Shipped v2"] 6).Pairwise
      (fun a b => pyLower a ≠ pyLower b) :=
  ⟨(C3_tighten_props ["Led  the team", "", "led the  team", "Shipped v2"] 6).1
      (by omega),
   ((C3_tighten_props ["Led  the team", "", "led the  team", "Shipped v2"] 6).2
      (by decide)).1,
   ((C3_tighten_props ["Led  the team", "", "led the  team", "Shipped v2"] 6).2
      (by decide)).2⟩

set_option maxRecDepth 400000 in
/-- Claim C9 counterexample: on the §8 scenario texts the federal style
signal does NOT fire — `detect_signals` tests only for "usajobs", " gs-"
and "specialized experience", none of which occurs, and the
"11:59 p.m. Eastern" phrase plays no role in signal detection. -/
theorem C9_counterexample :
    "federal" ∉ detect_signals scenarioResume scenarioJob := by
  decide

set_option maxRecDepth 400000 in
/-- Claim C9 (corrected): on the §8 scenario the detected signal set is
exactly {healthcare} (fired by the substring "rn" inside "Eastern" and
"churn"), with no federal signal; the "11:59 p.m. Eastern" phrase is
recognized instead by the separate federal helper `detect_closing_et`,
which returns the closing-date reminder used by the federal checklist. -/
theorem C9_signals_and_closing_note :
    detect_signals scenarioResume scenarioJob = ["healthcare"] ∧
    detect_closing_et scenarioJob
      = "Submit by 11:59 p.m. Eastern Time on the closing date." := by
  constructor
  · decide
  · decide

theorem foldl_append_new (ts : List String) :
    ∀ core : List String,
      ∃ extra, (ts.foldl (fun core t =>
          if pyTitle t ∈ core then core else core ++ [pyTitle t]) core)
        = core ++ extra ∧ extra.length ≤ ts.length ∧ extra.Nodup ∧
        ∀ s ∈ extra, s ∉ core := by
  induction ts with
  | nil => intro core; exact ⟨[], by simp, by simp, by simp, by simp⟩
  | cons t ts ih =>
    intro core
    by_cases h : pyTitle t ∈ core
    · obtain ⟨extra, he, hl, hnd, hni⟩ := ih core
      refine ⟨extra, ?_, Nat.le_succ_of_le hl, hnd, hni⟩
      rw [List.foldl_cons, if_pos h]
      exact he
    · obtain ⟨extra, he, hl, hnd, hni⟩ := ih (core ++ [pyTitle t])
      refine ⟨pyTitle t :: extra, ?_, by simpa using hl, ?_, ?_⟩
      · rw [List.foldl_cons, if_neg h, he]
        simp
      · refine List.nodup_cons.mpr ⟨fun hx => ?_, hnd⟩
        exact hni (pyTitle t) hx (by simp)
      · intro s hs
        rcases List.mem_cons.mp hs with hs | hs
        · rw [hs]; exact h
        · intro hx
          exact hni s hs (List.mem_append_left _ hx)

/-- Counterexample for claim C5: the claim also cites
`inject_metric_shell` of `HogueResMaster_v9_2_2.py` (lines 331-337), but
that build's digit test on line 334 is `re.search(r"\\d", x)`, whose raw
string holds backslash-backslash-d — a regex for the LITERAL substring
backslash-d, not the digit class.  The bullet "Grew revenue 12%" contains
a digit, yet that build still prepends the placeholder instead of
returning the payload unchanged. -/
theorem C5_counterexample :
    containsDigitStr "Grew revenue 12%" = true ∧
    V922.inject_metric_shell
        ⟨"Jo", "sum", ["Core"],
          [⟨"Co", "Ti", "2020", ["Grew revenue 12%"]⟩], "Edu"⟩
      = ⟨"Jo", "sum", ["Core"],
          [⟨"Co", "Ti", "2020",
            [metricPlaceholder, "Grew revenue 12%"]⟩], "Edu"⟩ ∧
    V922.inject_metric_shell
        ⟨"Jo", "sum", ["Core"],
          [⟨"Co", "Ti", "2020", ["Grew revenue 12%"]⟩], "Edu"⟩
      ≠ ⟨"Jo", "sum", ["Core"],
          [⟨"Co", "Ti", "2020", ["Grew revenue 12%"]⟩], "Edu"⟩ :=
  ⟨by decide, by decide, by decide⟩

/-- Claim C5 (corrected): the fat build's `ensure_metric_shell` satisfies
the claim — when the most recent role's bullets contain no digit it
prepends exactly the placeholder line, which carries the explicit
`[CONFIRM]` unconfirmed-metric markers and contains no digit, and when
some bullet already contains a digit the payload is returned unchanged.
The other cited build, `inject_metric_shell` of `HogueResMaster_v9_2_2.py`,
tests each bullet for the literal substring backslash-d instead of a
digit: it prepends the placeholder whenever no bullet contains that
literal substring (digits notwithstanding) and returns the payload
unchanged only when some bullet contains it. -/
theorem C5_metric_shell_two_builds (p : Payload) (j : Role) (js : List Role)
    (h : p.experience = j :: js) :
    ((∀ b ∈ j.bullets, containsDigitStr b = false) →
      Fat.ensure_metric_shell p
        = { p with experience :=
              { j with bullets := metricPlaceholder :: j.bullets } :: js } ∧
      (∀ c ∈ metricPlaceholder.toList, isAsciiDigit c = false) ∧
      containsSub metricPlaceholder "[CONFIRM]" = true) ∧
    ((∃ b ∈ j.bullets, containsDigitStr b = true) →
      Fat.ensure_metric_shell p = p) ∧
    ((∀ b ∈ j.bullets, containsSub b "\\d" = false) →
      V922.inject_metric_shell p
        = { p with experience :=
              { j with bullets := metricPlaceholder :: j.bullets } :: js }) ∧
    ((∃ b ∈ j.bullets, containsSub b "\\d" = true) →
      V922.inject_metric_shell p = p) := by
  refine ⟨?_, ?_, ?_, ?_⟩
  · intro hnone
    have hany : j.bullets.any containsDigitStr = false := by
      rw [List.any_eq_false]
      intro b hb
      simp [hnone b hb]
    refine ⟨?_, by decide, by decide⟩
    unfold Fat.ensure_metric_shell
    rw [h]
    simp only [hany]
    rfl
  · intro ⟨b, hb, hdig⟩
    have hany : j.bullets.any containsDigitStr = true :=
      List.any_eq_true.mpr ⟨b, hb, hdig⟩
    unfold Fat.ensure_metric_shell
    rw [h]
    simp only [hany]
    rfl
  · intro hnone
    have hany : j.bullets.any (fun x => containsSub x "\\d") = false := by
      rw [List.any_eq_false]
      intro b hb
      simp [hnone b hb]
    unfold V922.inject_metric_shell
    rw [h]
    simp only [hany]
    rfl
  · intro ⟨b, hb, hlit⟩
    have hany : j.bullets.any (fun x => containsSub x "\\d") = true :=
      List.any_eq_true.mpr ⟨b, hb, hlit⟩
    unfold V922.inject_metric_shell
    rw [h]
    simp only [hany]
    rfl

/-- Witness for C5: in the fat build a payload whose only role has no
quantified bullet gets exactly the placeholder prepended and one with a
digit is unchanged; in the v9.2.2 build the placeholder is prepended
when no bullet holds the literal substring backslash-d and the payload is
unchanged when one does. -/
theorem C5_witness :
    Fat.ensure_metric_shell
        ⟨"Jo", "sum", ["Core"],
          [⟨"Co", "Ti", "2020", ["Did things well"]⟩], "Edu"⟩
      = ⟨"Jo", "sum", ["Core"],
          [⟨"Co", "Ti", "2020",
            [metricPlaceholder, "Did things well"]⟩], "Edu"⟩ ∧
    Fat.ensure_metric_shell
        ⟨"Jo", "sum", ["Core"],
          [⟨"Co", "Ti", "2020", ["Grew revenue 12%"]⟩], "Edu"⟩
      = ⟨"Jo", "sum", ["Core"],
          [⟨"Co", "Ti", "2020", ["Grew revenue 12%"]⟩], "Edu"⟩ ∧
    V922.inject_metric_shell
        ⟨"Jo", "sum", ["Core"],
          [⟨"Co", "Ti", "2020", ["Did things well"]⟩], "Edu"⟩
      = ⟨"Jo", "sum", ["Core"],
          [⟨"Co", "Ti", "2020",
            [metricPlaceholder, "Did things well"]⟩], "Edu"⟩ ∧
    V922.inject_metric_shell
        ⟨"Jo", "sum", ["Core"],
          [⟨"Co", "Ti", "2020", ["matches the \\d class"]⟩], "Edu"⟩
      = ⟨"Jo", "sum", ["Core"],
          [⟨"Co", "Ti", "2020", ["matches the \\d class"]⟩], "Edu"⟩ :=
  ⟨((C5_metric_shell_two_builds _ ⟨"Co", "Ti", "2020", ["Did things well"]⟩
      [] rfl).1 (by decide)).1,
   (C5_metric_shell_two_builds _ ⟨"Co", "Ti", "2020", ["Grew revenue 12%"]⟩
      [] rfl).2.1 ⟨"Grew revenue 12%", by decide, by decide⟩,
   (C5_metric_shell_two_builds _ ⟨"Co", "Ti", "2020", ["Did things well"]⟩
      [] rfl).2.2.1 (by decide),
   (C5_metric_shell_two_builds _
      ⟨"Co", "Ti", "2020", ["matches the \\d class"]⟩
      [] rfl).2.2.2 ⟨"matches the \\d class", by decide, by decide⟩⟩

theorem injSummaryStep_spec (c : ℕ) (m : List String) (p : Payload) :
    ((Fat.injSummaryStep c m p).1.summary = p.summary ∨
      ∃ ks : List String, ks.length ≤ c ∧
        (Fat.injSummaryStep c m p).1.summary
          = pyStrip (p.summary ++ (if p.summary ≠ "" then " " else "") ++
              "Focus: " ++ String.intercalate ", " ks ++ ".")) ∧
    (Fat.injSummaryStep c m p).1.core_items = p.core_items ∧
    (Fat.injSummaryStep c m p).1.experience = p.experience := by
  unfold Fat.injSummaryStep
  split
  · exact ⟨Or.inr ⟨m.take c, List.length_take_le c m, rfl⟩, rfl, rfl⟩
  · exact ⟨Or.inl rfl, rfl, rfl⟩

theorem injCoreStep_spec (c : ℕ) (m : List String) (p : Payload) :
    (∃ extra : List String,
        (Fat.injCoreStep c m p).1.core_items = p.core_items ++ extra ∧
        extra.length ≤ c ∧ extra.Nodup ∧ ∀ s ∈ extra, s ∉ p.core_items) ∧
    (Fat.injCoreStep c m p).1.summary = p.summary ∧
    (Fat.injCoreStep c m p).1.experience = p.experience := by
  unfold Fat.injCoreStep
  split
  · obtain ⟨extra, he, hl, hnd, hni⟩ := foldl_append_new (m.take c) p.core_items
    exact ⟨⟨extra, he, le_trans hl (List.length_take_le c m), hnd, hni⟩,
      rfl, rfl⟩
  · exact ⟨⟨[], by simp, by simp, by simp, by simp⟩, rfl, rfl⟩

theorem injBulletStep_spec (c : ℕ) (m : List String) (p : Payload) :
    ((Fat.injBulletStep c m p).experience = p.experience ∨
      ∃ (j : Role) (js : List Role) (ks : List String),
        p.experience = j :: js ∧ ks.length ≤ c ∧
        (Fat.injBulletStep c m p).experience
          = { j with bullets := advancedSentence ks :: j.bullets } :: js) ∧
    (Fat.injBulletStep c m p).summary = p.summary ∧
    (Fat.injBulletStep c m p).core_items = p.core_items := by
  unfold Fat.injBulletStep
  split
  · rcases hexp : p.experience with _ | ⟨j, js⟩
    · exact ⟨Or.inl hexp, rfl, rfl⟩
    · exact ⟨Or.inr ⟨j, js, m.take c, rfl, List.length_take_le c m, rfl⟩,
        rfl, rfl⟩
  · exact ⟨Or.inl rfl, rfl, rfl⟩

theorem inject_keywords_core_caps (missing0 : List String) (p : Payload) :
    ((Fat.inject_keywords_core missing0 p (2, 2, 2)).summary = p.summary ∨
      ∃ ks : List String, ks.length ≤ 2 ∧
        (Fat.inject_keywords_core missing0 p (2, 2, 2)).summary
          = pyStrip (p.summary ++ (if p.summary ≠ "" then " " else "") ++
              "Focus: " ++ String.intercalate ", " ks ++ ".")) ∧
    (∃ extra : List String,
        (Fat.inject_keywords_core missing0 p (2, 2, 2)).core_items
          = p.core_items ++ extra ∧
        extra.length ≤ 2 ∧ extra.Nodup ∧ ∀ s ∈ extra, s ∉ p.core_items) ∧
    ((Fat.inject_keywords_core missing0 p (2, 2, 2)).experience
        = p.experience ∨
      ∃ (j : Role) (js : List Role) (ks : List String),
        p.experience = j :: js ∧ ks.length ≤ 2 ∧
        (Fat.inject_keywords_core missing0 p (2, 2, 2)).experience
          = { j with bullets := advancedSentence ks :: j.bullets } :: js) := by
  by_cases hm1 : ((missing0.filter (fun m => m ∉ noiseWords)).take 6).isEmpty
  · have hq : Fat.inject_keywords_core missing0 p (2, 2, 2) = p := by
      simp only [Fat.inject_keywords_core, hm1]
      rfl
    rw [hq]
    exact ⟨Or.inl rfl, ⟨[], by simp, by simp, by simp, by simp⟩, Or.inl rfl⟩
  · have hm1' : ((missing0.filter (fun m => m ∉ noiseWords)).take 6).isEmpty
        = false := bool_eq_false_of_not hm1
    have hq : Fat.inject_keywords_core missing0 p (2, 2, 2)
        = Fat.injBulletStep 2
            (Fat.injCoreStep 2
              (Fat.injSummaryStep 2
                ((missing0.filter (fun m => m ∉ noiseWords)).take 6) p).2
              (Fat.injSummaryStep 2
                ((missing0.filter (fun m => m ∉ noiseWords)).take 6) p).1).2
            (Fat.injCoreStep 2
              (Fat.injSummaryStep 2
                ((missing0.filter (fun m => m ∉ noiseWords)).take 6) p).2
              (Fat.injSummaryStep 2
                ((missing0.filter (fun m => m ∉ noiseWords)).take 6) p).1).1 := by
      simp only [Fat.inject_keywords_core, hm1']
      rfl
    rw [hq]
    obtain ⟨hsum1, hcore1, hexp1⟩ :=
      injSummaryStep_spec 2 ((missing0.filter (fun m => m ∉ noiseWords)).take 6) p
    obtain ⟨hcore2, hsum2, hexp2⟩ :=
      injCoreStep_spec 2
        (Fat.injSummaryStep 2
          ((missing0.filter (fun m => m ∉ noiseWords)).take 6) p).2
        (Fat.injSummaryStep 2
          ((missing0.filter (fun m => m ∉ noiseWords)).take 6) p).1
    obtain ⟨hexp3, hsum3, hcore3⟩ :=
      injBulletStep_spec 2
        (Fat.injCoreStep 2
          (Fat.injSummaryStep 2
            ((missing0.filter (fun m => m ∉ noiseWords)).take 6) p).2
          (Fat.injSummaryStep 2
            ((missing0.filter (fun m => m ∉ noiseWords)).take 6) p).1).2
        (Fat.injCoreStep 2
          (Fat.injSummaryStep 2
            ((missing0.filter (fun m => m ∉ noiseWords)).take 6) p).2
          (Fat.injSummaryStep 2
            ((missing0.filter (fun m => m ∉ noiseWords)).take 6) p).1).1
    refine ⟨?_, ?_, ?_⟩
    · rw [hsum3, hsum2]
      exact hsum1
    · obtain ⟨extra, he, hl, hnd, hni⟩ := hcore2
      rw [hcore1] at he hni
      exact ⟨extra, by rw [hcore3]; exact he, hl, hnd, hni⟩
    · rcases hexp3 with h | ⟨j, js, ks, hjs, hkl, hupd⟩
      · left
        rw [h, hexp2]
        exact hexp1
      · right
        refine ⟨j, js, ks, ?_, hkl, hupd⟩
        rw [← hjs, hexp2]
        exact hexp1.symm

/-- Claim C4 (confirmed): with the default per-section caps (2, 2, 2),
`inject_keywords` adds at most 2 keywords to the summary's Focus clause,
appends at most 2 entries to the core-skills list — never one already
present (nor a duplicate among the appended ones) — and prepends at most
one achievement sentence naming at most 2 keywords to the most recent
role, leaving all other fields and roles unchanged.  The properties hold
for every enumeration order of Python's set difference (proved via
`inject_keywords_core_caps` over an arbitrary enumeration). -/
theorem C4_inject_keywords_caps (p : Payload) (jd : String) :
    ((Fat.inject_keywords p jd).summary = p.summary ∨
      ∃ ks : List String, ks.length ≤ 2 ∧
        (Fat.inject_keywords p jd).summary
          = pyStrip (p.summary ++ (if p.summary ≠ "" then " " else "") ++
              "Focus: " ++ String.intercalate ", " ks ++ ".")) ∧
    (∃ extra : List String,
        (Fat.inject_keywords p jd).core_items = p.core_items ++ extra ∧
        extra.length ≤ 2 ∧ extra.Nodup ∧ ∀ s ∈ extra, s ∉ p.core_items) ∧
    ((Fat.inject_keywords p jd).experience = p.experience ∨
      ∃ (j : Role) (js : List Role) (ks : List String),
        p.experience = j :: js ∧ ks.length ≤ 2 ∧
        (Fat.inject_keywords p jd).experience
          = { j with bullets := advancedSentence ks :: j.bullets } :: js) :=
  inject_keywords_core_caps
    (Fat.kwDiffCanon jd (Fat.payload_to_text p)) p

/-- Claim C10 (confirmed): with the evidence-only flag enabled (the
default), `evidence_guard` returns exactly the non-blank lines of the
cover text joined by newlines — it never removes or alters a non-blank
line, and its output does not depend on the resume or job text. -/
theorem C10_evidence_guard_identity (cover resume_text jd_text : String) :
    (evidence_guard cover resume_text jd_text
      = String.intercalate "\n"
          ((pySplitlines cover).filter (fun ln => pyStrip ln ≠ ""))) ∧
    (∀ r2 j2 : String,
      evidence_guard cover resume_text jd_text
        = evidence_guard cover r2 j2) := by
  have h : ∀ rt jt : String, evidence_guard cover rt jt
      = String.intercalate "\n"
          ((pySplitlines cover).filter (fun ln => pyStrip ln ≠ "")) := by
    intro rt jt
    simp [evidence_guard, V11_evidence_only, ite_self]
  exact ⟨h resume_text jd_text,
    fun r2 j2 => (h resume_text jd_text).trans (h r2 j2).symm⟩

theorem sorted_key_perm_eq {β : Type} :
    ∀ (l₁ l₂ : List (String × β)), List.Perm l₁ l₂ →
      List.Sorted (fun a b : String × β => a.1 ≤ b.1) l₁ →
      List.Sorted (fun a b : String × β => a.1 ≤ b.1) l₂ →
      (l₁.map Prod.fst).Nodup → l₁ = l₂ := by
  intro l₁
  induction l₁ with
  | nil =>
    intro l₂ hp _ _ _
    exact List.Perm.nil_eq hp
  | cons a t₁ ih =>
    intro l₂ hp hs₁ hs₂ hnd
    cases l₂ with
    | nil => exact absurd (List.Perm.nil_eq hp.symm).symm (by simp)
    | cons b t₂ =>
      have hab : a = b := by
        have haIn : a ∈ b :: t₂ := hp.mem_iff.mp (by simp)
        rcases List.mem_cons.mp haIn with h | haT2
        · exact h
        · have hbIn : b ∈ a :: t₁ := hp.mem_iff.mpr (by simp)
          rcases List.mem_cons.mp hbIn with h | hbT1
          · exact h.symm
          · have h1 : a.1 ≤ b.1 :=
              (List.sorted_cons.mp hs₁).1 b hbT1
            have h2 : b.1 ≤ a.1 :=
              (List.sorted_cons.mp hs₂).1 a haT2
            have hkey : a.1 = b.1 := le_antisymm h1 h2
            have : a.1 ∈ t₁.map Prod.fst :=
              List.mem_map.mpr ⟨b, hbT1, hkey.symm⟩
            exact absurd this (List.nodup_cons.mp hnd).1
      subst hab
      have htails : List.Perm t₁ t₂ := hp.cons_inv
      have := ih t₂ htails (List.sorted_cons.mp hs₁).2
        (List.sorted_cons.mp hs₂).2 (List.nodup_cons.mp hnd).2
      rw [this]

theorem sortByKey_eq_of_perm {β : Type} (l₁ l₂ : List (String × β))
    (hp : List.Perm l₁ l₂) (hnd : (l₁.map Prod.fst).Nodup) :
    sortByKey l₁ = sortByKey l₂ := by
  haveI : IsTotal (String × β) (fun a b => a.1 ≤ b.1) :=
    ⟨fun a b => le_total a.1 b.1⟩
  haveI : IsTrans (String × β) (fun a b => a.1 ≤ b.1) :=
    ⟨fun _ _ _ hab hbc => le_trans hab hbc⟩
  apply sorted_key_perm_eq
  · exact ((List.perm_insertionSort _ l₁).trans hp).trans
      (List.perm_insertionSort _ l₂).symm
  · exact List.sorted_insertionSort _ l₁
  · exact List.sorted_insertionSort _ l₂
  · exact ((List.perm_insertionSort _ l₁).map Prod.fst).nodup_iff.mpr hnd

/-- Claim C6 (confirmed): the build signature is a pure function of the
four inputs (determinism), and canonicalization by key-sorting makes it
independent of how the identity and selection dictionaries were built: two
computations over byte-identical values of the four inputs yield the
identical signature for every insertion order of the dictionary entries
(dictionaries modelled as key-distinct association lists related by
permutation). -/
theorem C6_signature_order_independent (resume_text jd_text : String)
    (p₁ p₂ : List (String × String)) (s₁ s₂ : List (String × SelVal))
    (hp : List.Perm p₁ p₂) (hs : List.Perm s₁ s₂)
    (hpk : (p₁.map Prod.fst).Nodup) (hsk : (s₁.map Prod.fst).Nodup) :
    build_signature resume_text jd_text p₁ s₁
      = build_signature resume_text jd_text p₂ s₂ := by
  unfold build_signature
  unfold signatureBlob dumpsStrObj dumpsSelObj
  rw [sortByKey_eq_of_perm p₁ p₂ hp hpk, sortByKey_eq_of_perm s₁ s₂ hs hsk]

/-- Witness for C6: the same `person` and `selection` dictionaries built in
two different insertion orders give the same signature. -/
theorem C6_witness :
    (List.Perm [("first", "Jon"), ("last", "Hogue")]
        [("last", "Hogue"), ("first", "Jon")] ∧
      List.Perm
        [("styles", SelVal.strList ["classic"]), ("length", SelVal.str "auto")]
        [("length", SelVal.str "auto"),
         ("styles", SelVal.strList ["classic"])]) ∧
    build_signature "resume text" "job text"
        [("first", "Jon"), ("last", "Hogue")]
        [("styles", SelVal.strList ["classic"]), ("length", SelVal.str "auto")]
      = build_signature "resume text" "job text"
        [("last", "Hogue"), ("first", "Jon")]
        [("length", SelVal.str "auto"),
         ("styles", SelVal.strList ["classic"])] :=
  ⟨⟨by decide, by decide⟩,
   C6_signature_order_independent "resume text" "job text" _ _ _ _
     (by decide) (by decide) (by decide) (by decide)⟩

theorem processChunk_length (hs chunk : List ℕ) :
    (processChunk hs chunk).length = 8 := by
  simp [processChunk]

theorem foldl_processChunk_length (cs : List (List ℕ)) :
    ∀ hs : List ℕ, hs.length = 8 → (cs.foldl processChunk hs).length = 8 := by
  induction cs with
  | nil => intro hs h; simpa using h
  | cons c cs ih => intro hs _; exact ih _ (processChunk_length hs c)

theorem sha256hex_ne_empty (msg : List ℕ) : sha256hex msg ≠ "" := by
  unfold sha256hex
  have h8 : ((chunks64 (sha256pad msg)).foldl processChunk SHA_H0).length = 8 :=
    foldl_processChunk_length _ SHA_H0 (by decide)
  rcases he : (chunks64 (sha256pad msg)).foldl processChunk SHA_H0
      with _ | ⟨a, t⟩
  · rw [he] at h8; simp at h8
  · intro hcon
    have h0 : (toHex8 a :: t.map toHex8).flatten = ([] : List Char) :=
      congrArg String.toList hcon
    simp only [List.flatten_cons] at h0
    have := (List.append_eq_nil.mp h0).1
    have hlen : (toHex8 a).length = 8 := by simp [toHex8]
    rw [this] at hlen
    simp at hlen

theorem run_auto_cached (cache : List String)
    (person : List (String × String))
    (company title resume_text jd_text : String) (styles : List String)
    (today : String)
    (hmem : build_signature resume_text jd_text person (selectionOf styles)
      ∈ cache) :
    run_auto cache person company title resume_text jd_text styles today
      = { files := [], events := [Eff.memWrite (selectionOf styles)],
          cache := cache } := by
  have hne : build_signature resume_text jd_text person (selectionOf styles)
      ≠ "" := sha256hex_ne_empty _
  simp only [run_auto, V11_idempotent_runs, V11_style_memory, if_true]
  rw [if_pos ⟨hne, hmem⟩]

theorem run_auto_not_cached (cache : List String)
    (person : List (String × String))
    (company title resume_text jd_text : String) (styles : List String)
    (today : String)
    (hmem : build_signature resume_text jd_text person (selectionOf styles)
      ∉ cache) :
    ∃ ws : List String,
      (run_auto cache person company title resume_text jd_text styles
          today).events
        = Eff.memWrite (selectionOf styles) ::
            (ws.map Eff.artifact ++
              [Eff.cacheRecord (build_signature resume_text jd_text person
                (selectionOf styles))]) ∧
      (run_auto cache person company title resume_text jd_text styles
          today).cache
        = build_signature resume_text jd_text person (selectionOf styles)
          :: cache := by
  have hne : build_signature resume_text jd_text person (selectionOf styles)
      ≠ "" := sha256hex_ne_empty _
  simp only [run_auto, V11_idempotent_runs, V11_style_memory, if_true]
  rw [if_neg (fun h => hmem h.2)]
  simp only [if_pos (show True ∧ build_signature resume_text jd_text person
    (selectionOf styles) ≠ "" from ⟨True.intro, hne⟩)]
  refine ⟨(styles.flatMap (fun s =>
      genStyleWrites (base_name ((person.lookup "first").getD "")
        ((person.lookup "last").getD "") company title s today)
        (s = "federal"))) ++
    [base_name ((person.lookup "first").getD "")
        ((person.lookup "last").getD "") company title
        (styles.getD 0 "") today ++ "_DELIVERABLES.zip"], ?_, ?_⟩
  · simp
  · exact True.intro

theorem filter_cacheRecord_map_artifact (l : List String) :
    (l.map Eff.artifact).filter isCacheRecordEff = [] := by
  induction l with
  | nil => rfl
  | cons a t ih => simp [isCacheRecordEff, ih]

set_option maxRecDepth 10000 in
/-- Claim C2 counterexample: a `run_auto` call whose signature is already
cached returns an empty result, but it is NOT free of side effects — the
call records the style selection in the session memory
(`remember_style`, a persisted file write) before the cache check, so its
event trace is nonempty. -/
theorem C2_counterexample :
    (run_auto
        [build_signature "resume text" "job text" [("first", "Jon")]
          (selectionOf ["classic"])]
        [("first", "Jon")] "Co" "Writer" "resume text" "job text"
        ["classic"] "2025-08-16").events ≠ [] ∧
    (run_auto
        [build_signature "resume text" "job text" [("first", "Jon")]
          (selectionOf ["classic"])]
        [("first", "Jon")] "Co" "Writer" "resume text" "job text"
        ["classic"] "2025-08-16").events
      = [Eff.memWrite (selectionOf ["classic"])] ∧
    (run_auto
        [build_signature "resume text" "job text" [("first", "Jon")]
          (selectionOf ["classic"])]
        [("first", "Jon")] "Co" "Writer" "resume text" "job text"
        ["classic"] "2025-08-16").files = [] := by
  have h := run_auto_cached
    [build_signature "resume text" "job text" [("first", "Jon")]
      (selectionOf ["classic"])]
    [("first", "Jon")] "Co" "Writer" "resume text" "job text"
    ["classic"] "2025-08-16" (by simp)
  refine ⟨?_, ?_, ?_⟩
  · rw [h]; simp
  · rw [h]
  · rw [h]

/-- Claim C2 (corrected): when the signature is cached, the second call
returns an empty result with zero artifacts, records nothing in the cache
and leaves it unchanged — but it does perform one persisted side effect,
the session style-memory write, before the cache check; on a non-cached
run the event trace starts with that memory write and ends with exactly
one cache record — `record(sig)` is called exactly once, at the end — and
the signature is appended to the cache. -/
theorem C2_run_auto_idempotent_effects (cache : List String)
    (person : List (String × String))
    (company title resume_text jd_text : String) (styles : List String)
    (today : String) :
    (build_signature resume_text jd_text person (selectionOf styles)
        ∈ cache →
      (run_auto cache person company title resume_text jd_text styles
          today).files = [] ∧
      (run_auto cache person company title resume_text jd_text styles
          today).events = [Eff.memWrite (selectionOf styles)] ∧
      (run_auto cache person company title resume_text jd_text styles
          today).cache = cache) ∧
    (build_signature resume_text jd_text person (selectionOf styles)
        ∉ cache →
      (run_auto cache person company title resume_text jd_text styles
          today).events.filter isCacheRecordEff
        = [Eff.cacheRecord (build_signature resume_text jd_text person
            (selectionOf styles))] ∧
      (run_auto cache person company title resume_text jd_text styles
          today).events.getLast?
        = some (Eff.cacheRecord (build_signature resume_text jd_text person
            (selectionOf styles))) ∧
      (run_auto cache person company title resume_text jd_text styles
          today).events.head?
        = some (Eff.memWrite (selectionOf styles)) ∧
      (run_auto cache person company title resume_text jd_text styles
          today).cache
        = build_signature resume_text jd_text person (selectionOf styles)
          :: cache) := by
  constructor
  · intro hmem
    rw [run_auto_cached cache person company title resume_text jd_text
      styles today hmem]
    exact ⟨rfl, rfl, rfl⟩
  · intro hmem
    obtain ⟨ws, hev, hca⟩ := run_auto_not_cached cache person company title
      resume_text jd_text styles today hmem
    refine ⟨?_, ?_, ?_, hca⟩
    · rw [hev]
      simp only [List.filter_cons, List.filter_append,
        filter_cacheRecord_map_artifact]
      rfl
    · rw [hev]
      show ((Eff.memWrite (selectionOf styles) :: ws.map Eff.artifact) ++
        [Eff.cacheRecord (build_signature resume_text jd_text person
          (selectionOf styles))]).getLast? = _
      rw [List.getLast?_concat]
    · rw [hev]
      rfl

/-- Witness for C2: a non-cached call on the empty cache — the event trace
holds exactly one cache record, placed last, and the cache gains the
signature. -/
theorem C2_witness :
    (build_signature "r" "j" [("first", "A"), ("last", "B")]
        (selectionOf ["classic"]) ∉ ([] : List String)) ∧
    ((run_auto [] [("first", "A"), ("last", "B")] "C" "T" "r" "j"
        ["classic"] "2025-01-01").events.filter isCacheRecordEff
      = [Eff.cacheRecord (build_signature "r" "j"
          [("first", "A"), ("last", "B")] (selectionOf ["classic"]))] ∧
     (run_auto [] [("first", "A"), ("last", "B")] "C" "T" "r" "j"
        ["classic"] "2025-01-01").events.getLast?
      = some (Eff.cacheRecord (build_signature "r" "j"
          [("first", "A"), ("last", "B")] (selectionOf ["classic"]))) ∧
     (run_auto [] [("first", "A"), ("last", "B")] "C" "T" "r" "j"
        ["classic"] "2025-01-01").events.head?
      = some (Eff.memWrite (selectionOf ["classic"])) ∧
     (run_auto [] [("first", "A"), ("last", "B")] "C" "T" "r" "j"
        ["classic"] "2025-01-01").cache
      = build_signature "r" "j" [("first", "A"), ("last", "B")]
          (selectionOf ["classic"]) :: []) :=
  ⟨by simp,
   (C2_run_auto_idempotent_effects [] [("first", "A"), ("last", "B")]
      "C" "T" "r" "j" ["classic"] "2025-01-01").2 (by simp)⟩
